import Mathlib

/-!
Verification of the claude-api-proxy protocol-translation core.

This file gives a shallow embedding, in Lean, of the converters of the
claude-api-proxy repository and proves properties of them:

* the Anthropic → OpenAI request transformers
  (`convertAnthropicToOpenAI` in `src/converters/messages.ts` and
  `anthropicToOpenAI` in `src/converters/messages/requests.ts`, together
  with the content converters of `src/converters/messages/content.ts`);
* the OpenAI → Anthropic non-streaming response transformer
  (`convertOpenAIResponseToAnthropic` in `src/converters/messages.ts`);
* the streaming transducer built from `StreamStateMachine`
  (`src/converters/streaming/state-machine.ts`) and the transformer of
  `src/converters/streaming/index.ts`;
* the SSE line framers of `src/converters/streaming.ts` (unbuffered) and
  `src/converters/streaming/index.ts` (buffered).

Calls into the JavaScript runtime (`JSON.stringify`, `JSON.parse`) are
modelled as explicit function parameters, so every theorem quantifies over
their behaviour.  JavaScript truthiness tests from the source are modelled
explicitly (a string is truthy iff non-empty, an array or object is always
truthy, `undefined`/`null` are falsy).
-/

set_option linter.unusedVariables false

/-! ### JSON values (results of `JSON.parse`, arguments of `JSON.stringify`) -/

inductive Json where
  | null : Json
  | bool (b : Bool) : Json
  | num (n : Int) : Json
  | str (s : String) : Json
  | arr (elems : List Json) : Json
  | obj (fields : List (String × Json)) : Json
deriving Repr, Inhabited

/-! ### JavaScript string helpers -/

/-- The whitespace characters stripped by JavaScript `String.prototype.trim`
(the common ones; the exotic Unicode space characters never appear in the
repository's data). -/
def jsWhitespace (c : Char) : Bool :=
  c = ' ' || c = '\t' || c = '\n' || c = '\r' || c = '\x0b' || c = '\x0c'

/-- JavaScript `String.prototype.trim` on character lists. -/
def jsTrimList (l : List Char) : List Char :=
  ((l.dropWhile jsWhitespace).reverse.dropWhile jsWhitespace).reverse

/-- JavaScript `String.prototype.trim`. -/
def jsTrim (s : String) : String := ⟨jsTrimList s.toList⟩

/-- JavaScript `String.prototype.startsWith`, modelled on the underlying
character lists. -/
def jsStartsWith (s pre : String) : Bool :=
  s.toList.take pre.toList.length = pre.toList

/-! ### Anthropic request data model (`src/schemas.ts`) -/

inductive ARole where
  | user
  | assistant
deriving DecidableEq, Repr

/-- The `content` of a `tool_result` block: a raw string or a structured
array (`z.union([z.string(), z.array(z.any())])`). -/
inductive ToolResultContent where
  | str (s : String)
  | arr (elems : List Json)
deriving Repr

/-- `AnthropicContentBlockSchema`: text, base64 image, tool_use, tool_result. -/
inductive AnthropicContentBlock where
  | text (text : String)
  | image (mediaType data : String)
  | toolUse (id name : String) (input : Json)
  | toolResult (toolUseId : String) (content : ToolResultContent) (isError : Option Bool)
deriving Repr

/-- A block of the array form of the `system` field. -/
structure SystemBlock where
  text : String
deriving DecidableEq, Repr

/-- A message `content`: a plain string or a list of content blocks. -/
inductive AnthropicMessageContent where
  | str (s : String)
  | blocks (l : List AnthropicContentBlock)
deriving Repr

structure AnthropicMessage where
  role : ARole
  content : AnthropicMessageContent
deriving Repr

inductive SystemField where
  | str (s : String)
  | blocks (l : List SystemBlock)
deriving DecidableEq, Repr

structure AnthropicMetadata where
  userId : Option String
deriving DecidableEq, Repr

structure AnthropicTool where
  name : String
  description : String
  inputSchema : Json
deriving Repr

structure AnthropicMessagesRequest where
  model : String
  messages : List AnthropicMessage
  maxTokens : Nat
  temperature : Option Rat := none
  topP : Option Rat := none
  topK : Option Nat := none
  stopSequences : Option (List String) := none
  stream : Option Bool := none
  system : Option SystemField := none
  metadata : Option AnthropicMetadata := none
  tools : Option (List AnthropicTool) := none
deriving Repr

/-! ### OpenAI request data model (`src/schemas/openai.ts`, `src/types.ts`) -/

inductive ORole where
  | system
  | user
  | assistant
  | tool
deriving DecidableEq, Repr

def ARole.toORole : ARole → ORole
  | .user => .user
  | .assistant => .assistant

inductive OpenAIContentPart where
  | text (text : String)
  | imageUrl (url : String)
deriving DecidableEq, Repr

/-- OpenAI message content: a string or a list of parts. -/
inductive OpenAIContent where
  | str (s : String)
  | parts (l : List OpenAIContentPart)
deriving DecidableEq, Repr

/-- JavaScript truthiness of an OpenAI message content value: the empty
string is falsy, an array (even empty) is truthy. -/
def OpenAIContent.truthy : OpenAIContent → Bool
  | .str s => s ≠ ""
  | .parts _ => true

structure OpenAIFunctionCall where
  name : String
  arguments : String
deriving DecidableEq, Repr

structure OpenAIToolCall where
  id : String
  function : OpenAIFunctionCall
deriving DecidableEq, Repr

structure OpenAIMessage where
  role : ORole
  content : OpenAIContent
  toolCalls : Option (List OpenAIToolCall) := none
  toolCallId : Option String := none
deriving DecidableEq, Repr

structure OpenAITool where
  name : String
  description : String
  parameters : Json
deriving Repr

/-- The `stop` field: a single string (when exactly one stop sequence was
given) or a list. -/
inductive StopField where
  | one (s : String)
  | many (l : List String)
deriving DecidableEq, Repr

structure OpenAIChatCompletionRequest where
  model : String
  messages : List OpenAIMessage
  maxTokens : Option Nat := none
  temperature : Option Rat := none
  topP : Option Rat := none
  stop : Option StopField := none
  stream : Option Bool := none
  user : Option String := none
  tools : Option (List OpenAITool) := none
  toolChoice : Option String := none
deriving Repr

/-- The JavaScript-runtime functions the converters call.  They are passed
as parameters so that every theorem quantifies over their behaviour. -/
structure JsRuntime where
  /-- `JSON.stringify` applied to a `tool_use` block's `input`. -/
  stringifyJson : Json → String
  /-- `JSON.stringify` applied to a structured `tool_result` content. -/
  stringifyJsonArr : List Json → String
  /-- `JSON.stringify` applied to a whole content block (the fallback in
  `convertAnthropicContentToOpenAI` of `src/converters/messages.ts`). -/
  stringifyBlock : AnthropicContentBlock → String

/-- A concrete instantiation of the runtime parameters, used to evaluate
the converters on closed inputs. -/
def jsRuntime0 : JsRuntime where
  stringifyJson := fun _ => "null"
  stringifyJsonArr := fun _ => "[]"
  stringifyBlock := fun _ => "[block]"

/-! ### Block classifiers shared by both request transformers
(`filter` calls in `convertAnthropicToOpenAI` / `anthropicToOpenAI`) -/

def isTextBlock : AnthropicContentBlock → Bool
  | .text _ => true
  | _ => false

def isToolUseBlock : AnthropicContentBlock → Bool
  | .toolUse _ _ _ => true
  | _ => false

def isToolResultBlock : AnthropicContentBlock → Bool
  | .toolResult _ _ _ => true
  | _ => false

/-- `block.type === 'text' || block.type === 'image'`. -/
def isRegularBlock : AnthropicContentBlock → Bool
  | .text _ => true
  | .image _ _ => true
  | _ => false

/-- The `text` field of a text block (only applied to text blocks). -/
def blockText : AnthropicContentBlock → String
  | .text t => t
  | _ => ""

/-- `convertAnthropicToolsToOpenAI` (identical in both transformer files). -/
def convertAnthropicToolsToOpenAI (anthropicTools : List AnthropicTool) : List OpenAITool :=
  anthropicTools.map fun tool =>
    { name := tool.name, description := tool.description, parameters := tool.inputSchema }

/-- The system-message prefix (identical in both transformer files):
`if (anthropicRequest.system) { ... }` — a string system prompt is used
as-is (and skipped when empty, by JS truthiness), an array of text blocks
is joined by the empty string. -/
def systemMessages (req : AnthropicMessagesRequest) : List OpenAIMessage :=
  match req.system with
  | some (.str s) => if s ≠ "" then [{ role := .system, content := .str s }] else []
  | some (.blocks l) =>
      [{ role := .system, content := .str (String.join (l.map SystemBlock.text)) }]
  | none => []

/-- The tool messages produced from the `tool_result` blocks of one message
(identical in both transformer files): each becomes a `role: tool` message
whose content is the raw string or the JSON encoding of the structured
content, carrying `tool_call_id`. -/
def toolResultMessages (js : JsRuntime) (bl : List AnthropicContentBlock) : List OpenAIMessage :=
  (bl.filter isToolResultBlock).filterMap fun b =>
    match b with
    | .toolResult tuId cont _ =>
        some { role := .tool,
               content := .str (match cont with
                 | .str s => s
                 | .arr l => js.stringifyJsonArr l),
               toolCallId := some tuId }
    | _ => none

/-- The `tool_calls` field produced from the `tool_use` blocks of one
message (identical in both transformer files): present iff at least one
`tool_use` block exists. -/
def toolCallsField (js : JsRuntime) (bl : List AnthropicContentBlock) : Option (List OpenAIToolCall) :=
  let toolUseBlocks := bl.filter isToolUseBlock
  if toolUseBlocks.length > 0 then
    some (toolUseBlocks.filterMap fun b =>
      match b with
      | .toolUse id name input => some { id := id, function := { name := name, arguments := js.stringifyJson input } }
      | _ => none)
  else none

namespace MessagesTs

/-!
The transformer of `src/converters/messages.ts` — the one imported by
`src/handlers/messages/index.ts`.
-/

/-- `convertAnthropicContentToOpenAI` of `src/converters/messages.ts`:
renders a block list to a single string, text blocks verbatim and anything
else through `JSON.stringify`, joined by newlines. -/
def convertAnthropicContentToOpenAI (js : JsRuntime) : AnthropicMessageContent → String
  | .str s => s
  | .blocks l =>
      String.intercalate "\n" (l.map fun block =>
        match block with
        | .text t => t
        | b => js.stringifyBlock b)

/-- The content string computed for a block-sequence message: the trimmed
newline-join of the text blocks, which is then overwritten by the untrimmed
render of the text/image blocks whenever any such block exists. -/
def messageContentString (js : JsRuntime) (bl : List AnthropicContentBlock) : String :=
  let textBlocks := bl.filter isTextBlock
  let content0 : String :=
    if textBlocks.length > 0 then
      jsTrim (String.intercalate "\n" (textBlocks.map blockText))
    else ""
  let regularBlocks := bl.filter isRegularBlock
  if regularBlocks.length > 0 then convertAnthropicContentToOpenAI js (.blocks regularBlocks)
  else content0

/-- The per-message step of the message loop of `convertAnthropicToOpenAI`:
the list of OpenAI messages pushed for one Anthropic message.  Tool-result
messages are pushed first, then the main message (only when its content or
tool-call list is truthy). -/
def convertMessage (js : JsRuntime) (message : AnthropicMessage) : List OpenAIMessage :=
  match message.content with
  | .str s => [{ role := message.role.toORole, content := .str s }]
  | .blocks bl =>
      let content := messageContentString js bl
      let toolCalls := toolCallsField js bl
      toolResultMessages js bl ++
        (if content ≠ "" ∨ toolCalls.isSome then
          [{ role := message.role.toORole, content := .str content, toolCalls := toolCalls }]
        else [])

/-- `convertAnthropicToOpenAI` of `src/converters/messages.ts`.  Note the
hard-coded outgoing model name. -/
def convertAnthropicToOpenAI (js : JsRuntime) (anthropicRequest : AnthropicMessagesRequest) :
    OpenAIChatCompletionRequest :=
  let messages :=
    systemMessages anthropicRequest ++
      anthropicRequest.messages.flatMap (convertMessage js)
  { model := "deepseek-chat"
    messages := messages
    maxTokens :=
      if anthropicRequest.maxTokens ≠ 0 then some (min anthropicRequest.maxTokens 8192) else none
    temperature := anthropicRequest.temperature
    topP := anthropicRequest.topP
    stop :=
      match anthropicRequest.stopSequences with
      | some l => if l.length = 1 then some (.one (l.headD "")) else some (.many l)
      | none => none
    stream := anthropicRequest.stream
    user :=
      match anthropicRequest.metadata with
      | some m =>
          match m.userId with
          | some u => if u ≠ "" then some u else none
          | none => none
      | none => none
    tools :=
      match anthropicRequest.tools with
      | some ts => if ts.length > 0 then some (convertAnthropicToolsToOpenAI ts) else none
      | none => none
    toolChoice :=
      match anthropicRequest.tools with
      | some ts => if ts.length > 0 then some "auto" else none
      | none => none }

end MessagesTs

namespace RequestsTs

/-!
The refactored transformer of `src/converters/messages/requests.ts`
together with the content converters of `src/converters/messages/content.ts`.
-/

/-- The loop body of `convertAnthropicContentToOpenAI` of
`src/converters/messages/content.ts`: a text block becomes a text part, a
base64 image block a data-URL image part, other blocks are skipped. -/
def contentPartOf : AnthropicContentBlock → Option OpenAIContentPart
  | .text t => some (.text t)
  | .image mt d => some (.imageUrl ("data:" ++ mt ++ ";base64," ++ d))
  | _ => none

/-- `convertAnthropicContentToOpenAI` of `src/converters/messages/content.ts`:
renders blocks to OpenAI content parts (text parts and base64 data-URL
image parts), collapsing a lone text part back to a string. -/
def convertAnthropicContentToOpenAI : AnthropicMessageContent → OpenAIContent
  | .str s => .str s
  | .blocks l =>
      match l.filterMap contentPartOf with
      | [OpenAIContentPart.text t] => .str t
      | parts => .parts parts

/-- The characters matched by the JavaScript regex `.` without the `s`
flag (everything except the four line terminators). -/
def jsDot (c : Char) : Bool :=
  !(c = '\n' || c = '\r' || c = '\u2028' || c = '\u2029')

/-- The regex match `url.match(/^data:([^;]+);base64,(.*)$/)` of
`convertOpenAIContentToAnthropic`: a non-empty semicolon-free media type,
the literal `;base64,`, and a remainder free of line terminators. -/
def dataUrlMatch (url : String) : Option (String × String) :=
  let cs := url.toList
  if cs.take 5 = ("data:").toList then
    let rest := cs.drop 5
    let mt := rest.takeWhile (fun c => c ≠ ';')
    let after := rest.drop mt.length
    if mt.length > 0 ∧ after.take 8 = (";base64,").toList then
      let d := after.drop 8
      if d.all jsDot then some (⟨mt⟩, ⟨d⟩) else none
    else none
  else none

/-- The loop body of `convertOpenAIContentToAnthropic` over the parts list;
a remote (non-`data:`) image URL or an unmatched data URL throws. -/
def convertPartsToAnthropic : List OpenAIContentPart → Except String (List AnthropicContentBlock)
  | [] => .ok []
  | .text t :: rest => (convertPartsToAnthropic rest).map fun bs => .text t :: bs
  | .imageUrl url :: rest =>
      if jsStartsWith url "data:" then
        match dataUrlMatch url with
        | some (mt, d) => (convertPartsToAnthropic rest).map fun bs => .image mt d :: bs
        | none => .error "Invalid data URL for image"
      else .error "Remote image URLs are not supported for Anthropic conversion"

/-- `convertOpenAIContentToAnthropic` of `src/converters/messages/content.ts`. -/
def convertOpenAIContentToAnthropic : OpenAIContent → Except String AnthropicMessageContent
  | .str s => .ok (.str s)
  | .parts l => (convertPartsToAnthropic l).map .blocks

/-- The content computed for a block-sequence message by `anthropicToOpenAI`
of `src/converters/messages/requests.ts`: the trimmed newline-join of the
text blocks, overwritten by the parts rendering whenever a text or image
block exists. -/
def messageContent (bl : List AnthropicContentBlock) : OpenAIContent :=
  let textBlocks := bl.filter isTextBlock
  let content0 : OpenAIContent :=
    if textBlocks.length > 0 then
      .str (jsTrim (String.intercalate "\n" (textBlocks.map blockText)))
    else .str ""
  let regularBlocks := bl.filter isRegularBlock
  if regularBlocks.length > 0 then convertAnthropicContentToOpenAI (.blocks regularBlocks)
  else content0

/-- The per-message step of the message loop of `anthropicToOpenAI`. -/
def convertMessage (js : JsRuntime) (message : AnthropicMessage) : List OpenAIMessage :=
  match message.content with
  | .str s => [{ role := message.role.toORole, content := .str s }]
  | .blocks bl =>
      let content := messageContent bl
      let toolCalls := toolCallsField js bl
      toolResultMessages js bl ++
        (if content.truthy ∨ toolCalls.isSome then
          [{ role := message.role.toORole, content := content, toolCalls := toolCalls }]
        else [])

/-- `anthropicToOpenAI` of `src/converters/messages/requests.ts`.  The
outgoing model is `loadConfig().targetModel`, passed here as the
`targetModel` parameter. -/
def anthropicToOpenAI (js : JsRuntime) (targetModel : String)
    (anthropicRequest : AnthropicMessagesRequest) : OpenAIChatCompletionRequest :=
  let messages :=
    systemMessages anthropicRequest ++
      anthropicRequest.messages.flatMap (convertMessage js)
  { model := targetModel
    messages := messages
    maxTokens :=
      if anthropicRequest.maxTokens ≠ 0 then some (min anthropicRequest.maxTokens 8192) else none
    temperature := anthropicRequest.temperature
    topP := anthropicRequest.topP
    stop :=
      match anthropicRequest.stopSequences with
      | some l => if l.length = 1 then some (.one (l.headD "")) else some (.many l)
      | none => none
    stream := anthropicRequest.stream
    user :=
      match anthropicRequest.metadata with
      | some m =>
          match m.userId with
          | some u => if u ≠ "" then some u else none
          | none => none
      | none => none
    tools :=
      match anthropicRequest.tools with
      | some ts => if ts.length > 0 then some (convertAnthropicToolsToOpenAI ts) else none
      | none => none
    toolChoice :=
      match anthropicRequest.tools with
      | some ts => if ts.length > 0 then some "auto" else none
      | none => none }

end RequestsTs

/-! ### Anthropic response data model and the non-streaming response
transformer (`convertOpenAIResponseToAnthropic` of `src/converters/messages.ts`) -/

inductive AnthropicStopReason where
  | endTurn
  | maxTokens
  | stopSequence
  | toolUse
deriving DecidableEq, Repr

inductive AnthropicResponseBlock where
  | text (text : String)
  | toolUse (id name : String) (input : Json)
deriving Repr

structure AnthropicUsage where
  inputTokens : Nat
  outputTokens : Nat
deriving DecidableEq, Repr

structure AnthropicMessagesResponse where
  id : String
  content : List AnthropicResponseBlock
  model : String
  stopReason : AnthropicStopReason
  stopSequence : Option String
  usage : AnthropicUsage
deriving Repr

structure OpenAIResponseMessage where
  content : Option String
  toolCalls : Option (List OpenAIToolCall)
deriving DecidableEq, Repr

structure OpenAIChoice where
  message : OpenAIResponseMessage
  finishReason : Option String
deriving DecidableEq, Repr

structure OpenAIUsage where
  promptTokens : Nat
  completionTokens : Nat
deriving DecidableEq, Repr

structure OpenAIChatCompletionResponse where
  id : String
  model : String
  choices : List OpenAIChoice
  usage : OpenAIUsage
deriving DecidableEq, Repr

/-- The `switch (choice.finish_reason)` of `convertOpenAIResponseToAnthropic`
(`src/converters/messages.ts`), written in source order: `stop`, `length`,
`content_filter`, `tool_calls`, default. -/
def stopReasonSwitch (finishReason : Option String) : AnthropicStopReason :=
  if finishReason = some "stop" then .endTurn
  else if finishReason = some "length" then .maxTokens
  else if finishReason = some "content_filter" then .endTurn
  else if finishReason = some "tool_calls" then .toolUse
  else .endTurn

/-- The text block produced from `choice.message.content`
(`if (choice.message.content && choice.message.content.trim())`). -/
def responseTextBlocks (choice : OpenAIChoice) : List AnthropicResponseBlock :=
  match choice.message.content with
  | some s => if jsTrim s ≠ "" then [.text s] else []
  | none => []

/-- The `tool_use` blocks produced from `choice.message.tool_calls`; a
`none` result models a `JSON.parse` throw (`MalformedToolArguments`). -/
def responseToolBlocks (parseJson : String → Option Json) (choice : OpenAIChoice) :
    Option (List AnthropicResponseBlock) :=
  match choice.message.toolCalls with
  | some tcs =>
      tcs.mapM fun tc =>
        (parseJson tc.function.arguments).map fun j =>
          AnthropicResponseBlock.toolUse tc.id tc.function.name j
  | none => some []

/-- `convertOpenAIResponseToAnthropic` of `src/converters/messages.ts`.
`parseJson` models `JSON.parse`; a `none` result models a throw
(`MalformedToolArguments`), which aborts the conversion.  An empty
`choices` array also aborts (accessing `choices[0].message` throws). -/
def convertOpenAIResponseToAnthropic (parseJson : String → Option Json)
    (openaiResponse : OpenAIChatCompletionResponse) : Option AnthropicMessagesResponse :=
  match openaiResponse.choices with
  | [] => none
  | choice :: _ =>
      match responseToolBlocks parseJson choice with
      | none => none
      | some tbs =>
          let content0 := responseTextBlocks choice ++ tbs
          let content := if content0.length = 0 then [AnthropicResponseBlock.text ""] else content0
          some { id := openaiResponse.id
                 content := content
                 model := openaiResponse.model
                 stopReason := stopReasonSwitch choice.finishReason
                 stopSequence := none
                 usage := { inputTokens := openaiResponse.usage.promptTokens
                            outputTokens := openaiResponse.usage.completionTokens } }

/-! ### Sample inputs used by witnesses and counterexamples -/

/-- The request of scenario S1 of the spec. -/
def sampleRequest : AnthropicMessagesRequest :=
  { model := "claude-3-5-sonnet-20241022"
    messages := [{ role := .user, content := .str "Hi" }]
    maxTokens := 100 }

/-- A response whose first choice finished with `length` and has plain text
content. -/
def sampleLengthResponse : OpenAIChatCompletionResponse :=
  { id := "x"
    model := "m"
    choices := [{ message := { content := some "Hello", toolCalls := none },
                  finishReason := some "length" }]
    usage := { promptTokens := 1, completionTokens := 1 } }

/-! ### C4 — finish_reason → stop_reason mapping of the non-streaming
response transformer -/

/-- The mapping exactly as the claim states it (claim order: `stop`,
`length`, `tool_calls`, `content_filter`, anything else). -/
def claimedStopReasonC4 (finishReason : Option String) : AnthropicStopReason :=
  if finishReason = some "stop" then .endTurn
  else if finishReason = some "length" then .maxTokens
  else if finishReason = some "tool_calls" then .toolUse
  else if finishReason = some "content_filter" then .endTurn
  else .endTurn

theorem stopReasonSwitch_eq_claimed (fr : Option String) :
    stopReasonSwitch fr = claimedStopReasonC4 fr := by
  unfold stopReasonSwitch claimedStopReasonC4
  by_cases h1 : fr = some "stop" <;> by_cases h2 : fr = some "length" <;>
    by_cases h3 : fr = some "content_filter" <;> by_cases h4 : fr = some "tool_calls" <;>
    simp_all

/-- C4: for every OpenAI non-streaming response on which the response
transformer succeeds, the produced `stop_reason` is the first choice's
`finish_reason` mapped by: stop → end_turn, length → max_tokens,
tool_calls → tool_use, content_filter → end_turn, anything else → end_turn. -/
theorem c4_stop_reason_mapping (parseJson : String → Option Json)
    (resp : OpenAIChatCompletionResponse) (choice : OpenAIChoice) (rest : List OpenAIChoice)
    (out : AnthropicMessagesResponse)
    (hc : resp.choices = choice :: rest)
    (hout : convertOpenAIResponseToAnthropic parseJson resp = some out) :
    out.stopReason = claimedStopReasonC4 choice.finishReason := by
  unfold convertOpenAIResponseToAnthropic at hout
  rw [hc] at hout
  dsimp only at hout
  rcases htb : responseToolBlocks parseJson choice with _ | tbs
  · rw [htb] at hout
    exact absurd hout (by simp)
  · rw [htb] at hout
    simp only [Option.some.injEq] at hout
    rw [← hout]
    exact stopReasonSwitch_eq_claimed choice.finishReason

/-- Witness for C4 at the concrete response `sampleLengthResponse`. -/
theorem c4_stop_reason_mapping_witness :
    sampleLengthResponse.choices =
      ({ message := { content := some "Hello", toolCalls := none },
         finishReason := some "length" } : OpenAIChoice) :: [] ∧
    convertOpenAIResponseToAnthropic (fun _ => none) sampleLengthResponse =
      some { id := "x"
             content := [.text "Hello"]
             model := "m"
             stopReason := .maxTokens
             stopSequence := none
             usage := { inputTokens := 1, outputTokens := 1 } } ∧
    ({ id := "x"
       content := [.text "Hello"]
       model := "m"
       stopReason := .maxTokens
       stopSequence := none
       usage := { inputTokens := 1, outputTokens := 1 } } : AnthropicMessagesResponse).stopReason =
      claimedStopReasonC4 (some "length") :=
  ⟨rfl, rfl, c4_stop_reason_mapping (fun _ => none) sampleLengthResponse _ [] _ rfl rfl⟩

/-! ### C5 — the outgoing model field -/

/-- C5 (code bug): the production transformer `convertAnthropicToOpenAI` of
`src/converters/messages.ts` hard-codes the outgoing model to
`"deepseek-chat"` for every request and every runtime, instead of the
configured upstream model; the refactored `anthropicToOpenAI` of
`src/converters/messages/requests.ts` does use the configured
`targetModel`. -/
theorem c5_model_field (js : JsRuntime) (targetModel : String) (r : AnthropicMessagesRequest) :
    (MessagesTs.convertAnthropicToOpenAI js r).model = "deepseek-chat" ∧
    (RequestsTs.anthropicToOpenAI js targetModel r).model = targetModel :=
  ⟨rfl, rfl⟩

/-! ### C6 — max_tokens clamping -/

/-- C6: for every valid Anthropic request (`max_tokens ≥ 1`), both request
transformers emit `max_tokens = min(requested, 8192)`. -/
theorem c6_max_tokens (js : JsRuntime) (targetModel : String) (r : AnthropicMessagesRequest)
    (h : 1 ≤ r.maxTokens) :
    (MessagesTs.convertAnthropicToOpenAI js r).maxTokens = some (min r.maxTokens 8192) ∧
    (RequestsTs.anthropicToOpenAI js targetModel r).maxTokens = some (min r.maxTokens 8192) := by
  have hne : r.maxTokens ≠ 0 := by omega
  constructor <;>
    simp [MessagesTs.convertAnthropicToOpenAI, RequestsTs.anthropicToOpenAI, hne]

/-- Witness for C6 at the concrete request `sampleRequest`. -/
theorem c6_max_tokens_witness :
    1 ≤ sampleRequest.maxTokens ∧
    ((MessagesTs.convertAnthropicToOpenAI jsRuntime0 sampleRequest).maxTokens =
        some (min sampleRequest.maxTokens 8192) ∧
      (RequestsTs.anthropicToOpenAI jsRuntime0 "the-configured-model" sampleRequest).maxTokens =
        some (min sampleRequest.maxTokens 8192)) :=
  ⟨by decide, c6_max_tokens jsRuntime0 "the-configured-model" sampleRequest (by decide)⟩

/-! ### C7 — text-only block content -/

theorem filter_map_text_isText (texts : List String) :
    (texts.map AnthropicContentBlock.text).filter isTextBlock =
      texts.map AnthropicContentBlock.text := by
  induction texts with
  | nil => rfl
  | cons t ts ih => simp [isTextBlock, ih]

theorem filter_map_text_isToolUse (texts : List String) :
    (texts.map AnthropicContentBlock.text).filter isToolUseBlock = [] := by
  induction texts with
  | nil => rfl
  | cons t ts ih => simp [isToolUseBlock, ih]

theorem filter_map_text_isToolResult (texts : List String) :
    (texts.map AnthropicContentBlock.text).filter isToolResultBlock = [] := by
  induction texts with
  | nil => rfl
  | cons t ts ih => simp [isToolResultBlock, ih]

theorem filter_map_text_isRegular (texts : List String) :
    (texts.map AnthropicContentBlock.text).filter isRegularBlock =
      texts.map AnthropicContentBlock.text := by
  induction texts with
  | nil => rfl
  | cons t ts ih => simp [isRegularBlock, ih]

theorem render_map_text (js : JsRuntime) (texts : List String) :
    MessagesTs.convertAnthropicContentToOpenAI js (.blocks (texts.map .text)) =
      String.intercalate "\n" texts := by
  unfold MessagesTs.convertAnthropicContentToOpenAI
  dsimp only
  rw [List.map_map]
  congr 1
  have h : ((fun block => match block with
      | AnthropicContentBlock.text t => t
      | b => js.stringifyBlock b) ∘ AnthropicContentBlock.text) = fun t => t := by
    funext t
    rfl
  rw [h]
  exact List.map_id' texts

/-- The content string computed for a text-only block list is the plain
newline join, untrimmed (the trimmed join is computed first but then
overwritten by the untrimmed render of the text/image bucket). -/
theorem messageContentString_texts (js : JsRuntime) (texts : List String) (hne : texts ≠ []) :
    MessagesTs.messageContentString js (texts.map .text) =
      String.intercalate "\n" texts := by
  unfold MessagesTs.messageContentString
  have hlen : 0 < texts.length := List.length_pos.mpr hne
  simp [filter_map_text_isText, filter_map_text_isRegular, render_map_text, hlen, hne]

/-- C7 amended: for a message whose content is a non-empty list of text
blocks with a non-empty newline join, `convertAnthropicToOpenAI`
(`src/converters/messages.ts`) emits a single OpenAI message whose content
is the texts joined by a newline WITHOUT trimming. -/
theorem c7_text_only_join (js : JsRuntime) (role : ARole) (model : String) (mt : Nat)
    (texts : List String) (hne : texts ≠ [])
    (hjoin : String.intercalate "\n" texts ≠ "") :
    (MessagesTs.convertAnthropicToOpenAI js
      { model := model, messages := [{ role := role, content := .blocks (texts.map .text) }],
        maxTokens := mt }).messages =
      [{ role := role.toORole, content := .str (String.intercalate "\n" texts) }] := by
  unfold MessagesTs.convertAnthropicToOpenAI
  dsimp
  simp [systemMessages, MessagesTs.convertMessage, messageContentString_texts js texts hne,
        toolCallsField, toolResultMessages, filter_map_text_isToolUse,
        filter_map_text_isToolResult, hjoin]

/-- Witness for the amended C7 at texts `["a", "b"]`. -/
theorem c7_text_only_join_witness :
    (["a", "b"] : List String) ≠ [] ∧
    String.intercalate "\n" ["a", "b"] ≠ "" ∧
    (MessagesTs.convertAnthropicToOpenAI jsRuntime0
      { model := "m", messages := [{ role := .user, content := .blocks (["a", "b"].map .text) }],
        maxTokens := 1 }).messages =
      [{ role := ARole.user.toORole, content := .str (String.intercalate "\n" ["a", "b"]) }] :=
  ⟨by decide, by decide, c7_text_only_join jsRuntime0 .user "m" 1 ["a", "b"] (by decide) (by decide)⟩

/-- C7 counterexample: for the text-only content `[" hi "]` the transformer
outputs the UNtrimmed string `" hi "`, not the trimmed join `"hi"` the
claim requires. -/
theorem c7_counterexample :
    (MessagesTs.convertAnthropicToOpenAI jsRuntime0
      { model := "m", messages := [{ role := .user, content := .blocks [.text " hi "] }],
        maxTokens := 1 }).messages =
      [{ role := ORole.user, content := .str " hi " }] ∧
    jsTrim (String.intercalate "\n" [" hi "]) = "hi" ∧
    OpenAIContent.str " hi " ≠ OpenAIContent.str "hi" := by
  refine ⟨?_, by decide, by decide⟩
  have := c7_text_only_join jsRuntime0 .user "m" 1 [" hi "] (by decide) (by decide)
  simpa using this

/-! ### C9 — tool_result messages precede their sibling message -/

theorem toolResultMessages_role (js : JsRuntime) (bl : List AnthropicContentBlock) :
    ∀ m ∈ toolResultMessages js bl, m.role = ORole.tool := by
  intro m hm
  unfold toolResultMessages at hm
  rcases List.mem_filterMap.mp hm with ⟨b, hb, hf⟩
  rcases b with t | i | tu | tr
  · simp at hf
  · simp at hf
  · simp at hf
  · simp only [Option.some.injEq] at hf
    rw [← hf]

theorem length_filterMap_of_isSome {α β : Type} (f : α → Option β) (l : List α)
    (h : ∀ a ∈ l, (f a).isSome) : (l.filterMap f).length = l.length := by
  induction l with
  | nil => rfl
  | cons a as ih =>
      have ha := h a (List.mem_cons_self a as)
      rcases hfa : f a with _ | b
      · rw [hfa] at ha
        simp at ha
      · simp only [List.filterMap_cons, hfa, List.length_cons]
        rw [ih fun x hx => h x (List.mem_cons_of_mem a hx)]

theorem toolResultMessages_length (js : JsRuntime) (bl : List AnthropicContentBlock) :
    (toolResultMessages js bl).length = (bl.filter isToolResultBlock).length := by
  unfold toolResultMessages
  apply length_filterMap_of_isSome
  intro b hb
  have hpred := (List.mem_filter.mp hb).2
  rcases b with t | i | tu | tr
  · simp [isToolResultBlock] at hpred
  · simp [isToolResultBlock] at hpred
  · simp [isToolResultBlock] at hpred
  · simp

/-- C9: for a message whose block content contains tool_result blocks and
whose main message is emitted (non-empty rendered content or at least one
tool_use block — in particular whenever text, image or tool_use blocks are
present and renderable), `convertAnthropicToOpenAI`
(`src/converters/messages.ts`) pushes the tool-role messages derived from
the tool_result blocks BEFORE the sibling message derived from the same
source message, so the tool messages precede it in the outgoing list. -/
theorem c9_tool_results_first (js : JsRuntime) (role : ARole) (model : String) (mt : Nat)
    (bl : List AnthropicContentBlock)
    (htr : bl.filter isToolResultBlock ≠ [])
    (hemit : MessagesTs.messageContentString js bl ≠ "" ∨ (toolCallsField js bl).isSome) :
    (MessagesTs.convertAnthropicToOpenAI js
      { model := model, messages := [{ role := role, content := .blocks bl }],
        maxTokens := mt }).messages =
      toolResultMessages js bl ++
        [{ role := role.toORole, content := .str (MessagesTs.messageContentString js bl),
           toolCalls := toolCallsField js bl }] ∧
    toolResultMessages js bl ≠ [] ∧
    (∀ m ∈ toolResultMessages js bl, m.role = ORole.tool) := by
  refine ⟨?_, ?_, toolResultMessages_role js bl⟩
  · unfold MessagesTs.convertAnthropicToOpenAI
    dsimp only
    unfold MessagesTs.convertMessage
    simp only [List.flatMap_cons, List.flatMap_nil, List.append_nil]
    rw [if_pos hemit]
    simp [systemMessages]
  · intro h0
    apply htr
    have hlen := toolResultMessages_length js bl
    rw [h0] at hlen
    exact List.length_eq_zero.mp hlen.symm

/-- Witness for C9 at a message carrying one tool_result and one text block. -/
theorem c9_tool_results_first_witness :
    ([AnthropicContentBlock.toolResult "t1" (.str "ok") none,
      AnthropicContentBlock.text "hello"].filter isToolResultBlock ≠ []) ∧
    (MessagesTs.messageContentString jsRuntime0
        [AnthropicContentBlock.toolResult "t1" (.str "ok") none,
         AnthropicContentBlock.text "hello"] ≠ "" ∨
      (toolCallsField jsRuntime0
        [AnthropicContentBlock.toolResult "t1" (.str "ok") none,
         AnthropicContentBlock.text "hello"]).isSome) ∧
    ((MessagesTs.convertAnthropicToOpenAI jsRuntime0
      { model := "m",
        messages := [{ role := .user,
                       content := .blocks [AnthropicContentBlock.toolResult "t1" (.str "ok") none,
                                           AnthropicContentBlock.text "hello"] }],
        maxTokens := 1 }).messages =
      toolResultMessages jsRuntime0
          [AnthropicContentBlock.toolResult "t1" (.str "ok") none,
           AnthropicContentBlock.text "hello"] ++
        [{ role := ARole.user.toORole,
           content := .str (MessagesTs.messageContentString jsRuntime0
             [AnthropicContentBlock.toolResult "t1" (.str "ok") none,
              AnthropicContentBlock.text "hello"]),
           toolCalls := toolCallsField jsRuntime0
             [AnthropicContentBlock.toolResult "t1" (.str "ok") none,
              AnthropicContentBlock.text "hello"] }] ∧
      toolResultMessages jsRuntime0
          [AnthropicContentBlock.toolResult "t1" (.str "ok") none,
           AnthropicContentBlock.text "hello"] ≠ [] ∧
      (∀ m ∈ toolResultMessages jsRuntime0
          [AnthropicContentBlock.toolResult "t1" (.str "ok") none,
           AnthropicContentBlock.text "hello"], m.role = ORole.tool)) :=
  ⟨by simp [isToolResultBlock], by left; decide,
   c9_tool_results_first jsRuntime0 .user "m" 1 _ (by simp [isToolResultBlock]) (by left; decide)⟩

/-! ### C10 — text/image content round trip -/

def isImageBlock : AnthropicContentBlock → Bool
  | .image _ _ => true
  | _ => false

/-- The claim's media-type condition: no semicolon. -/
def mediaTypeNoSemicolon : AnthropicContentBlock → Bool
  | .image mt _ => mt.toList.all (fun c => c ≠ ';')
  | _ => true

def hasImageBlock (l : List AnthropicContentBlock) : Bool :=
  l.any isImageBlock

/-- The amended side condition: a text block, or an image block whose media
type is non-empty and semicolon-free and whose data contains no line
terminator (the JavaScript regex `.` does not match those). -/
def textOrSafeImage : AnthropicContentBlock → Bool
  | .text _ => true
  | .image mt d => mt ≠ "" && mt.toList.all (fun c => c ≠ ';') && d.toList.all RequestsTs.jsDot
  | _ => false

/-- To-OpenAI-and-back on a block list (`convertAnthropicContentToOpenAI`
then `convertOpenAIContentToAnthropic`, both of
`src/converters/messages/content.ts`). -/
def roundTripContent (c : List AnthropicContentBlock) : Except String AnthropicMessageContent :=
  RequestsTs.convertOpenAIContentToAnthropic (RequestsTs.convertAnthropicContentToOpenAI (.blocks c))

theorem jsToListAppend (s t : String) : (s ++ t).toList = s.toList ++ t.toList := rfl

theorem jsStartsWith_append (p r : String) : jsStartsWith (p ++ r) p = true := by
  unfold jsStartsWith
  rw [jsToListAppend, List.take_left]
  simp

theorem takeWhile_append_sentinel (p : Char → Bool) (xs : List Char) (y : Char) (ys : List Char)
    (hxs : ∀ a ∈ xs, p a = true) (hy : p y = false) :
    (xs ++ y :: ys).takeWhile p = xs := by
  induction xs with
  | nil => simp [List.takeWhile_cons, hy]
  | cons a as ih =>
      have ha := hxs a (List.mem_cons_self a as)
      have ih2 := ih fun x hx => hxs x (List.mem_cons_of_mem a hx)
      simp [List.takeWhile_cons, ha, ih2]

theorem string_toList_ne_nil (s : String) (h : s ≠ "") : s.toList ≠ [] := by
  intro hl
  apply h
  have hs : s = ⟨s.toList⟩ := rfl
  rw [hl] at hs
  exact hs

theorem dataUrl_match_roundtrip (mt d : String) (h1 : mt ≠ "")
    (h2 : mt.toList.all (fun c => c ≠ ';') = true)
    (h3 : d.toList.all RequestsTs.jsDot = true) :
    RequestsTs.dataUrlMatch ("data:" ++ mt ++ ";base64," ++ d) = some (mt, d) := by
  have hsb : (";base64,").toList = ';' :: ("base64,").toList := rfl
  have htw : (mt.toList ++ (";base64,".toList ++ d.toList)).takeWhile (fun c => c ≠ ';') =
      mt.toList := by
    rw [hsb]
    exact takeWhile_append_sentinel _ mt.toList ';' _
      (fun a ha => by simpa using (List.all_eq_true.mp h2 a ha)) (by simp)
  have hmtlen : 0 < mt.toList.length := List.length_pos.mpr (string_toList_ne_nil mt h1)
  unfold RequestsTs.dataUrlMatch
  have hl : ("data:" ++ mt ++ ";base64," ++ d).toList =
      "data:".toList ++ (mt.toList ++ (";base64,".toList ++ d.toList)) := by
    simp [jsToListAppend]
  rw [hl]
  dsimp only
  rw [List.take_left' (by rfl)]
  rw [if_pos rfl]
  rw [List.drop_left' (by rfl)]
  rw [htw]
  rw [List.drop_left' (by rfl)]
  rw [List.take_left' (by rfl)]
  rw [if_pos ⟨hmtlen, rfl⟩]
  rw [List.drop_left' (by rfl)]
  rw [if_pos h3]
  rfl

theorem url_startsWith_data (mt d : String) :
    jsStartsWith ("data:" ++ mt ++ ";base64," ++ d) "data:" = true := by
  have h : "data:" ++ mt ++ ";base64," ++ d = "data:" ++ (mt ++ (";base64," ++ d)) := by
    rw [String.append_assoc, String.append_assoc]
  rw [h]
  exact jsStartsWith_append _ _

theorem convertParts_roundtrip (c : List AnthropicContentBlock)
    (hall : c.all textOrSafeImage = true) :
    RequestsTs.convertPartsToAnthropic (c.filterMap RequestsTs.contentPartOf) = .ok c := by
  induction c with
  | nil => rfl
  | cons b bs ih =>
      rw [List.all_cons] at hall
      have hb := (Bool.and_eq_true _ _).mp hall |>.1
      have hbs := (Bool.and_eq_true _ _).mp hall |>.2
      have ihs := ih hbs
      rcases b with t | ⟨mt, d⟩ | ⟨tuId, tuName, tuInput⟩ | ⟨trId, trContent, trErr⟩
      · simp only [List.filterMap_cons, RequestsTs.contentPartOf]
        unfold RequestsTs.convertPartsToAnthropic
        rw [ihs]
        rfl
      · simp only [textOrSafeImage, Bool.and_eq_true, decide_eq_true_eq] at hb
        obtain ⟨⟨h1, h2⟩, h3⟩ := hb
        simp only [List.filterMap_cons, RequestsTs.contentPartOf]
        unfold RequestsTs.convertPartsToAnthropic
        rw [url_startsWith_data]
        rw [if_pos rfl]
        rw [dataUrl_match_roundtrip mt d h1 (by simpa using h2) h3]
        rw [ihs]
        rfl
      · simp [textOrSafeImage] at hb
      · simp [textOrSafeImage] at hb

/-- C10 amended: converting a text/image block list to OpenAI parts and back
is the identity (and in particular never throws), provided the list contains
at least one image block and every image block has a NON-EMPTY, semicolon-free
media type and line-terminator-free data.  (The non-emptiness and the data
condition are the amendment; the regex `/^data:([^;]+);base64,(.*)$/` of
`convertOpenAIContentToAnthropic` rejects an empty media type and a data
string containing a line terminator, and the conversion then throws.) -/
theorem c10_round_trip (c : List AnthropicContentBlock)
    (hall : c.all textOrSafeImage = true) (himg : hasImageBlock c = true) :
    roundTripContent c = Except.ok (.blocks c) := by
  have hback := convertParts_roundtrip c hall
  obtain ⟨b, hbc, hbi⟩ := List.any_eq_true.mp himg
  rcases b with t | ⟨mt, d⟩ | ⟨_, _, _⟩ | ⟨_, _, _⟩ <;> try simp [isImageBlock] at hbi
  have hu : OpenAIContentPart.imageUrl ("data:" ++ mt ++ ";base64," ++ d) ∈
      c.filterMap RequestsTs.contentPartOf :=
    List.mem_filterMap.mpr ⟨.image mt d, hbc, rfl⟩
  unfold roundTripContent RequestsTs.convertAnthropicContentToOpenAI
  rcases hp : c.filterMap RequestsTs.contentPartOf with _ | ⟨p, tail⟩
  · rw [hp] at hu
    simp at hu
  · rcases p with t | u
    · rcases tail with _ | ⟨q, rest⟩
      · rw [hp] at hu
        simp at hu
      · rw [hp] at hback
        unfold RequestsTs.convertOpenAIContentToAnthropic
        dsimp only
        rw [hp]
        dsimp only
        rw [hback]
        rfl
    · rw [hp] at hback
      unfold RequestsTs.convertOpenAIContentToAnthropic
      dsimp only
      rw [hp]
      dsimp only
      rw [hback]
      rfl

/-- Witness for the amended C10 at a text block and a jpeg image block. -/
theorem c10_round_trip_witness :
    ([AnthropicContentBlock.text "Look:",
      AnthropicContentBlock.image "image/jpeg" "AA=="].all textOrSafeImage = true) ∧
    hasImageBlock [AnthropicContentBlock.text "Look:",
      AnthropicContentBlock.image "image/jpeg" "AA=="] = true ∧
    roundTripContent [AnthropicContentBlock.text "Look:",
        AnthropicContentBlock.image "image/jpeg" "AA=="] =
      Except.ok (.blocks [AnthropicContentBlock.text "Look:",
        AnthropicContentBlock.image "image/jpeg" "AA=="]) :=
  ⟨by decide, by decide,
   c10_round_trip [AnthropicContentBlock.text "Look:",
     AnthropicContentBlock.image "image/jpeg" "AA=="] (by decide) (by decide)⟩

/-- C10 counterexample: the block list `[image with empty media type]`
satisfies every condition of the claim (only text/base64-image blocks, at
least one image, no semicolon in any media type), yet the backward
conversion THROWS (`Invalid data URL for image`) instead of returning the
original list: the claim fails as stated. -/
theorem c10_counterexample :
    ([AnthropicContentBlock.image "" "AA"].all fun b => isTextBlock b || isImageBlock b) = true ∧
    hasImageBlock [AnthropicContentBlock.image "" "AA"] = true ∧
    ([AnthropicContentBlock.image "" "AA"].all mediaTypeNoSemicolon) = true ∧
    roundTripContent [AnthropicContentBlock.image "" "AA"] =
      Except.error "Invalid data URL for image" :=
  ⟨by decide, by decide, by decide, rfl⟩

/-! ### The streaming transducer: `StreamStateMachine`
(`src/converters/streaming/state-machine.ts`) driven by the transformer of
`src/converters/streaming/index.ts`, modelled at the level of parsed
OpenAI chunk records and emitted Anthropic event records. -/

namespace SM

structure TCFunction where
  name : Option String := none
  arguments : Option String := none
deriving Repr, DecidableEq

structure TCDelta where
  index : Option Nat := none
  id : Option String := none
  function : Option TCFunction := none
deriving Repr, DecidableEq

structure ChunkDelta where
  content : Option String := none
  toolCalls : Option (List TCDelta) := none
deriving Repr, DecidableEq

structure ChunkChoice where
  delta : Option ChunkDelta := none
  finishReason : Option String := none
deriving Repr, DecidableEq

structure Chunk where
  id : String := ""
  model : String := ""
  choices : List ChunkChoice := []
deriving Repr, DecidableEq

inductive BlockPayload where
  | text
  | toolUse (id name : String)
deriving Repr, DecidableEq

inductive DeltaPayload where
  | textDelta (text : String)
  | inputJsonDelta (fragment : String)
deriving Repr, DecidableEq

/-- The Anthropic SSE events the transducer emits (the fields the claims
are about; `message_delta` carries the stop reason and the constant
`usage.output_tokens = 0` of `buildFinalizationEvents`). -/
inductive AEvent where
  | messageStart (id model : String)
  | blockStart (index : Nat) (block : BlockPayload)
  | blockDelta (index : Nat) (delta : DeltaPayload)
  | blockStop (index : Nat)
  | messageDelta (stopReason : AnthropicStopReason) (usageOutputTokens : Nat)
  | messageStop
deriving Repr, DecidableEq

/-- `StreamState` of `state-machine.ts`. -/
inductive StreamState where
  | idle
  | textContent
  | toolCalls
deriving Repr, DecidableEq

/-- `ToolCallState` of `state-machine.ts`. -/
structure ToolCallState where
  id : Option String := none
  name : Option String := none
  args : String := ""
deriving Repr, DecidableEq

/-- The private fields of `StreamStateMachine`.  The JavaScript `Map` is an
insertion-ordered association list, the `Set` an insertion-ordered list. -/
structure MachineState where
  currentState : StreamState := .idle
  currentBlockIndex : Nat := 0
  toolCallState : List (Nat × ToolCallState) := []
  emittedToolStarts : List Nat := []
  finalized : Bool := false
deriving Repr, DecidableEq

/-- JavaScript truthiness of an optional string (`undefined`, `null` and
`""` are falsy). -/
def strTruthy : Option String → Bool
  | some s => s ≠ ""
  | none => false

/-- `a ?? b` on optional strings. -/
def jsNullish (a b : Option String) : Option String :=
  match a with
  | some v => some v
  | none => b

/-- `Map.prototype.get`. -/
def tableGet (tbl : List (Nat × ToolCallState)) (k : Nat) : Option ToolCallState :=
  match tbl.find? (fun e => e.1 = k) with
  | some e => some e.2
  | none => none

/-- `Map.prototype.set`: replaces in place when the key exists, appends
otherwise. -/
def tableSet (tbl : List (Nat × ToolCallState)) (k : Nat) (v : ToolCallState) :
    List (Nat × ToolCallState) :=
  if (tbl.find? (fun e => e.1 = k)).isSome then
    tbl.map fun e => if e.1 = k then (k, v) else e
  else tbl ++ [(k, v)]

/-- One iteration of the loop of `processToolCallDeltas`. -/
def processOneToolCall (s : MachineState) (tc : TCDelta) : MachineState × List AEvent :=
  let idx := tc.index.getD 0
  let blockIndex := idx + 1
  let prev := (tableGet s.toolCallState idx).getD {}
  let id := jsNullish tc.id prev.id
  let name := jsNullish (tc.function.bind TCFunction.name) prev.name
  let args := prev.args ++ ((tc.function.bind TCFunction.arguments).getD "")
  let startNow := strTruthy name && !(s.emittedToolStarts.contains idx)
  let starts := if startNow then s.emittedToolStarts ++ [idx] else s.emittedToolStarts
  let startEvents :=
    if startNow then
      [AEvent.blockStart blockIndex (.toolUse
        (match id with
         | some v => if v ≠ "" then v else "toolu_" ++ toString idx
         | none => "toolu_" ++ toString idx)
        (name.getD ""))]
    else []
  let deltaEvents :=
    if strTruthy (tc.function.bind TCFunction.arguments) && starts.contains idx then
      [AEvent.blockDelta blockIndex (.inputJsonDelta ((tc.function.bind TCFunction.arguments).getD ""))]
    else []
  ({ s with toolCallState := tableSet s.toolCallState idx { id := id, name := name, args := args }
            emittedToolStarts := starts },
   startEvents ++ deltaEvents)

/-- `processToolCallDeltas`. -/
def processToolCallDeltas (s : MachineState) : List TCDelta → MachineState × List AEvent
  | [] => (s, [])
  | tc :: rest =>
      let r1 := processOneToolCall s tc
      let r2 := processToolCallDeltas r1.1 rest
      (r2.1, r1.2 ++ r2.2)

/-- `StreamStateMachine.transition`: closes the current block (at the
current block index) unless idle, bumps the index when moving to tool
calls, and opens a text block hard-coded at index 0 when moving to text. -/
def transition (s : MachineState) (newState : StreamState) : MachineState × List AEvent :=
  let closeEvents :=
    if s.currentState ≠ .idle then [AEvent.blockStop s.currentBlockIndex] else []
  let idx := if newState = .toolCalls then s.currentBlockIndex + 1 else s.currentBlockIndex
  let openEvents := if newState = .textContent then [AEvent.blockStart 0 .text] else []
  ({ s with currentState := newState, currentBlockIndex := idx }, closeEvents ++ openEvents)

/-- `StreamStateMachine.emitContent`.  Text deltas are emitted hard-coded
at index 0. -/
def emitContent (s : MachineState) (delta : ChunkDelta) : MachineState × List AEvent :=
  if s.currentState = .textContent ∧ strTruthy delta.content then
    (s, [AEvent.blockDelta 0 (.textDelta (delta.content.getD ""))])
  else if s.currentState = .toolCalls ∧ delta.toolCalls.isSome then
    processToolCallDeltas s (delta.toolCalls.getD [])
  else (s, [])

/-- Insertion into a sorted key list (the `sort` of `completeToolCalls`). -/
def insertSorted (n : Nat) : List Nat → List Nat
  | [] => [n]
  | m :: rest => if n ≤ m then n :: m :: rest else m :: insertSorted n rest

def sortKeys (l : List Nat) : List Nat := l.foldr insertSorted []

/-- The loop of `completeToolCalls` over the sorted keys: emits a
`content_block_stop` at `key + 1` for every started tool and removes it
from the started set. -/
def completeLoop (s : MachineState) : List Nat → MachineState × List AEvent
  | [] => (s, [])
  | k :: rest =>
      if s.emittedToolStarts.contains k then
        let s1 := { s with emittedToolStarts := s.emittedToolStarts.filter (fun x => x ≠ k) }
        let r := completeLoop s1 rest
        (r.1, AEvent.blockStop (k + 1) :: r.2)
      else completeLoop s rest

/-- `StreamStateMachine.completeToolCalls`. -/
def completeToolCalls (s : MachineState) : MachineState × List AEvent :=
  completeLoop s (sortKeys (s.toolCallState.map Prod.fst))

/-- `StreamStateMachine.processChunk`.  A chunk without a first choice or
without a `delta` is ignored entirely (including its `finish_reason`). -/
def processChunk (s : MachineState) (chunk : Chunk) : MachineState × List AEvent :=
  match chunk.choices.head? with
  | none => (s, [])
  | some choice =>
      match choice.delta with
      | none => (s, [])
      | some delta =>
          let newState :=
            if strTruthy delta.content then StreamState.textContent
            else if delta.toolCalls.isSome then StreamState.toolCalls
            else s.currentState
          let r1 := if newState ≠ s.currentState then transition s newState else (s, [])
          let r2 := emitContent r1.1 delta
          let r3 :=
            if choice.finishReason = some "tool_calls" then completeToolCalls r2.1 else (r2.1, [])
          (r3.1, r1.2 ++ r2.2 ++ r3.2)

/-- `StreamStateMachine.finalize`. -/
def finalize (s : MachineState) : MachineState × List AEvent :=
  if s.finalized then (s, [])
  else
    let r := completeToolCalls { s with finalized := true }
    let stopText := if r.1.currentState = .textContent then [AEvent.blockStop 0] else []
    (r.1, r.2 ++ stopText)

/-- `StreamStateMachine.getStopReason`: `tool_use` iff the tool table is
non-empty, `end_turn` otherwise — the upstream finish reason is never
consulted. -/
def getStopReason (s : MachineState) : AnthropicStopReason :=
  if s.toolCallState.length > 0 then .toolUse else .endTurn

/-- The per-request state of `createOpenAIToAnthropicStreamTransformer`
(`src/converters/streaming/index.ts`). -/
structure TransducerState where
  started : Bool := false
  sentStop : Bool := false
  machine : MachineState := {}
deriving Repr, DecidableEq

/-- Processing one parsed chunk record: `message_start` is emitted before
the first chunk, then the state machine runs. -/
def feedChunkRecord (st : TransducerState) (c : Chunk) : TransducerState × List AEvent :=
  let startEvents := if !st.started then [AEvent.messageStart c.id c.model] else []
  let r := processChunk st.machine c
  ({ st with started := true, machine := r.1 }, startEvents ++ r.2)

def feedAll (st : TransducerState) : List Chunk → TransducerState × List AEvent
  | [] => (st, [])
  | c :: rest =>
      let r1 := feedChunkRecord st c
      let r2 := feedAll r1.1 rest
      (r2.1, r1.2 ++ r2.2)

/-- The machine part of feeding a chunk list. -/
def machineRun (m : MachineState) : List Chunk → MachineState × List AEvent
  | [] => (m, [])
  | c :: rest =>
      let r1 := processChunk m c
      let r2 := machineRun r1.1 rest
      (r2.1, r1.2 ++ r2.2)

/-- `buildFinalizationEvents` on `[DONE]`: guarded by `started && !sentStop`;
finalizes open blocks, then emits `message_delta` (with the state machine's
stop reason and `output_tokens: 0`) and `message_stop`. -/
def doneEvents (st : TransducerState) : List AEvent :=
  if st.started && !st.sentStop then
    let r := finalize st.machine
    r.2 ++ [AEvent.messageDelta (getStopReason r.1) 0, AEvent.messageStop]
  else []

/-- The full transducer on a chunk-record stream terminated by `[DONE]`. -/
def transduce (chunks : List Chunk) : List AEvent :=
  let r := feedAll {} chunks
  r.2 ++ doneEvents r.1

/-- The machine state after feeding a chunk list (used to inspect the tool
table). -/
def runMachine (chunks : List Chunk) : MachineState := (feedAll {} chunks).1.machine

end SM

/-! ### The block-index discipline checker (the property of C1) -/

namespace SM

/-- The checker state: the currently open block index and the last stopped
index. -/
structure CheckSt where
  openIndex : Option Nat := none
  lastStopped : Option Nat := none
deriving Repr, DecidableEq

/-- Legality of `content_block_start index` in state `st`: no block is
open and the index exceeds every previously stopped index. -/
def startOk (st : CheckSt) (i : Nat) : Bool :=
  st.openIndex = none &&
    (match st.lastStopped with
     | some j => decide (j < i)
     | none => true)

/-- One step of the protocol check: a `content_block_start` is legal only
when no block is open and its index exceeds every previously stopped index
(indices non-decreasing, never reused, a new index only after the previous
block's stop); deltas and stops must address the open block.  Non-block
events pass through. -/
def checkStep (st : CheckSt) : AEvent → Option CheckSt
  | .blockStart i _ =>
      if startOk st i then some { st with openIndex := some i } else none
  | .blockDelta i _ => if st.openIndex = some i then some st else none
  | .blockStop i =>
      if st.openIndex = some i then some { openIndex := none, lastStopped := some i }
      else none
  | _ => some st

def checkRun (st : CheckSt) (evs : List AEvent) : Option CheckSt :=
  evs.foldlM checkStep st

/-- The whole-stream block discipline of C1. -/
def blockDiscipline (evs : List AEvent) : Bool :=
  (checkRun {} evs).isSome

end SM

/-! ### Concrete chunk records used by the streaming claims -/

/-- A chunk with a text fragment whose choice carries
`finish_reason: "length"`. -/
def lengthFinishChunk : SM.Chunk :=
  { id := "x", model := "m",
    choices := [{ delta := some { content := some "Hi", toolCalls := none },
                  finishReason := some "length" }] }

/-- An args-only tool-call delta for upstream index 0 (no name yet). -/
def preNameChunk (fragment : String) : SM.Chunk :=
  { id := "x", model := "m",
    choices := [{ delta := some { content := none,
                                  toolCalls := some [{ index := some 0, id := none,
                                                       function := some { name := none,
                                                                          arguments := some fragment } }] },
                  finishReason := none }] }

/-- The chunk that first supplies the tool name (with id `t1`) plus one
more argument fragment. -/
def nameChunk (name fragment : String) : SM.Chunk :=
  { id := "x", model := "m",
    choices := [{ delta := some { content := none,
                                  toolCalls := some [{ index := some 0, id := some "t1",
                                                       function := some { name := some name,
                                                                          arguments := some fragment } }] },
                  finishReason := none }] }

/-- One chunk delivering two complete tool calls (upstream indices 0 and 1)
and `finish_reason: "tool_calls"`. -/
def twoToolChunk : SM.Chunk :=
  { id := "x", model := "m",
    choices := [{ delta := some { content := none,
                                  toolCalls := some [{ index := some 0, id := some "a",
                                                       function := some { name := some "f",
                                                                          arguments := some "x" } },
                                                     { index := some 1, id := some "b",
                                                       function := some { name := some "g",
                                                                          arguments := some "y" } }] },
                  finishReason := some "tool_calls" }] }

/-! ### C2 — the streaming stop_reason ignores `finish_reason: "length"` -/

/-- C2 (code bug): on a stream whose chunk carries text and terminates with
`finish_reason: "length"`, the streaming transducer emits a terminal
`message_delta` whose stop_reason is `end_turn`, not the `max_tokens` the
claim (and spec §4.5.4) requires: `StreamStateMachine.getStopReason` can
only return `tool_use` or `end_turn` and never consults the upstream
finish reason. -/
theorem c2_length_stop_reason_evaluation :
    SM.transduce [lengthFinishChunk] =
      [.messageStart "x" "m",
       .blockStart 0 .text,
       .blockDelta 0 (.textDelta "Hi"),
       .blockStop 0,
       .messageDelta .endTurn 0,
       .messageStop] ∧
    AnthropicStopReason.endTurn ≠ AnthropicStopReason.maxTokens ∧
    (∀ s : SM.MachineState, SM.getStopReason s ≠ .maxTokens) := by
  refine ⟨rfl, by decide, ?_⟩
  intro s
  unfold SM.getStopReason
  by_cases h : s.toolCallState.length > 0 <;> simp [h]

/-! ### C3 — tool arguments before the name are buffered but NOT replayed -/

/-- The `partial_json` payloads of the `input_json_delta` events of a
stream. -/
def inputJsonPayloads (evs : List SM.AEvent) : List String :=
  evs.filterMap fun e =>
    match e with
    | .blockDelta _ (.inputJsonDelta s) => some s
    | _ => none

/-- C3 counterexample: the argument fragment `"ar"` arrives before the tool
name, the fragment `"gs"` together with it.  The transducer buffers `"ar"`
in the tool table (its `args` accumulates to `"args"`), but after the name
arrives it emits only `"gs"`: the buffered fragment is never replayed, so
argument text IS lost from the emitted stream, contradicting the claim. -/
theorem c3_counterexample :
    SM.transduce [preNameChunk "ar", nameChunk "f" "gs"] =
      [.messageStart "x" "m",
       .blockStart 1 (.toolUse "t1" "f"),
       .blockDelta 1 (.inputJsonDelta "gs"),
       .blockStop 1,
       .messageDelta .toolUse 0,
       .messageStop] ∧
    (SM.runMachine [preNameChunk "ar", nameChunk "f" "gs"]).toolCallState =
      [(0, { id := some "t1", name := some "f", args := "args" })] ∧
    String.join (inputJsonPayloads (SM.transduce [preNameChunk "ar", nameChunk "f" "gs"])) = "gs" ∧
    ("gs" : String) ≠ "args" :=
  ⟨rfl, rfl, rfl, by decide⟩

/-! ### C1 — block-index discipline: counterexample -/

/-- C1 counterexample: one upstream chunk carrying two tool calls (indices
0 and 1) and terminating with `finish_reason: "tool_calls"`.  The
transducer opens block 2 while block 1 is still open (its
`content_block_stop` comes only later), so the emitted stream violates the
claimed discipline: `blockDiscipline` rejects it. -/
theorem c1_counterexample :
    (twoToolChunk.choices.head?.bind SM.ChunkChoice.finishReason) = some "tool_calls" ∧
    SM.transduce [twoToolChunk] =
      [.messageStart "x" "m",
       .blockStart 1 (.toolUse "a" "f"),
       .blockDelta 1 (.inputJsonDelta "x"),
       .blockStart 2 (.toolUse "b" "g"),
       .blockDelta 2 (.inputJsonDelta "y"),
       .blockStop 1,
       .blockStop 2,
       .messageDelta .toolUse 0,
       .messageStop] ∧
    SM.blockDiscipline (SM.transduce [twoToolChunk]) = false :=
  ⟨rfl, rfl, rfl⟩

/-- Concatenation of a list of strings (rightward). -/
def strConcat (l : List String) : String := l.foldr (· ++ ·) ""

/-- The machine state while a tool call at upstream index 0 is buffering
arguments without a name: tool phase entered, nothing started, `args`
accumulated. -/
def toolBufferState (acc : String) : SM.MachineState :=
  { currentState := .toolCalls, currentBlockIndex := 1,
    toolCallState := [(0, { id := none, name := none, args := acc })],
    emittedToolStarts := [], finalized := false }

theorem str_empty_append (s : String) : "" ++ s = s := rfl

theorem processChunk_preName_first (f : String) :
    SM.processChunk {} (preNameChunk f) = (toolBufferState f, []) := by
  simp [SM.processChunk, preNameChunk, SM.emitContent, SM.processToolCallDeltas,
        SM.processOneToolCall, SM.transition, SM.strTruthy, SM.jsNullish,
        SM.tableGet, SM.tableSet, toolBufferState, str_empty_append]

theorem processChunk_preName (acc f : String) :
    SM.processChunk (toolBufferState acc) (preNameChunk f) = (toolBufferState (acc ++ f), []) := by
  simp [SM.processChunk, preNameChunk, SM.emitContent, SM.processToolCallDeltas,
        SM.processOneToolCall, SM.transition, SM.strTruthy, SM.jsNullish,
        SM.tableGet, SM.tableSet, toolBufferState]

theorem machineRun_preNames (acc : String) (fs : List String) :
    SM.machineRun (toolBufferState acc) (fs.map preNameChunk) =
      (toolBufferState (acc ++ strConcat fs), []) := by
  induction fs generalizing acc with
  | nil =>
      simp [SM.machineRun, strConcat]
  | cons f fs ih =>
      simp only [List.map_cons, SM.machineRun, processChunk_preName, ih (acc ++ f)]
      simp [strConcat, String.append_assoc]

theorem processChunk_nameChunk (acc name a : String) (hname : name ≠ "") :
    SM.processChunk (toolBufferState acc) (nameChunk name a) =
      ({ currentState := .toolCalls, currentBlockIndex := 1,
         toolCallState := [(0, { id := some "t1", name := some name, args := acc ++ a })],
         emittedToolStarts := [0], finalized := false },
       [.blockStart 1 (.toolUse "t1" name)] ++
         (if a ≠ "" then [SM.AEvent.blockDelta 1 (.inputJsonDelta a)] else [])) := by
  simp [SM.processChunk, nameChunk, SM.emitContent, SM.processToolCallDeltas,
        SM.processOneToolCall, SM.transition, SM.strTruthy, SM.jsNullish,
        SM.tableGet, SM.tableSet, toolBufferState, hname]

theorem machineRun_append (m : SM.MachineState) (cs1 cs2 : List SM.Chunk) :
    SM.machineRun m (cs1 ++ cs2) =
      ((SM.machineRun (SM.machineRun m cs1).1 cs2).1,
       (SM.machineRun m cs1).2 ++ (SM.machineRun (SM.machineRun m cs1).1 cs2).2) := by
  induction cs1 generalizing m with
  | nil => simp [SM.machineRun]
  | cons c cs ih =>
      simp only [List.cons_append, SM.machineRun, List.append_eq]
      rw [ih]
      simp [List.append_assoc]

theorem feedAll_started (cs : List SM.Chunk) (st : SM.TransducerState) (h : st.started = true) :
    SM.feedAll st cs =
      ({ st with machine := (SM.machineRun st.machine cs).1 },
       (SM.machineRun st.machine cs).2) := by
  induction cs generalizing st with
  | nil => simp [SM.feedAll, SM.machineRun]
  | cons c cs ih =>
      simp only [SM.feedAll, SM.feedChunkRecord, SM.machineRun, h]
      rw [ih { st with started := true, machine := (SM.processChunk st.machine c).1 } rfl]
      simp [h]

theorem transduce_cons (c : SM.Chunk) (cs : List SM.Chunk) :
    SM.transduce (c :: cs) =
      SM.AEvent.messageStart c.id c.model ::
        ((SM.machineRun {} (c :: cs)).2 ++
          ((SM.finalize (SM.machineRun {} (c :: cs)).1).2 ++
            [SM.AEvent.messageDelta
               (SM.getStopReason (SM.finalize (SM.machineRun {} (c :: cs)).1).1) 0,
             SM.AEvent.messageStop])) := by
  unfold SM.transduce
  simp only [SM.feedAll, SM.feedChunkRecord]
  rw [feedAll_started cs _ rfl]
  simp [SM.doneEvents, SM.machineRun, List.append_assoc]

/-- C3 amended: argument fragments that arrive before the tool name are
accumulated in the tool table WITHOUT opening a content block (only
`message_start` has been emitted), but they are NOT replayed when the name
arrives: the transducer then emits only the fragments carried by the
name-and-later chunks (here the single `input_json_delta` with the new
fragment `a`), so the buffered text never reaches the output. -/
theorem c3_buffered_not_replayed (fs : List String) (name a : String)
    (hfs : fs ≠ []) (hname : name ≠ "") (ha : a ≠ "") :
    (SM.feedAll {} (fs.map preNameChunk)).2 = [.messageStart "x" "m"] ∧
    (SM.runMachine (fs.map preNameChunk)).toolCallState =
      [(0, { id := none, name := none, args := strConcat fs })] ∧
    SM.transduce (fs.map preNameChunk ++ [nameChunk name a]) =
      [.messageStart "x" "m",
       .blockStart 1 (.toolUse "t1" name),
       .blockDelta 1 (.inputJsonDelta a),
       .blockStop 1,
       .messageDelta .toolUse 0,
       .messageStop] := by
  rcases fs with _ | ⟨f, rest⟩
  · exact absurd rfl hfs
  have hrun : SM.machineRun {} ((f :: rest).map preNameChunk) =
      (toolBufferState (strConcat (f :: rest)), []) := by
    simp only [List.map_cons, SM.machineRun, processChunk_preName_first, machineRun_preNames]
    rfl
  have hfeed : SM.feedAll {} ((f :: rest).map preNameChunk) =
      ({ started := true, sentStop := false, machine := toolBufferState (strConcat (f :: rest)) },
       [.messageStart "x" "m"]) := by
    simp only [List.map_cons, SM.feedAll, SM.feedChunkRecord]
    rw [show SM.processChunk ({} : SM.TransducerState).machine (preNameChunk f) =
          (toolBufferState f, []) from processChunk_preName_first f]
    rw [feedAll_started _ _ rfl]
    rw [machineRun_preNames]
    simp [preNameChunk]
    rfl
  refine ⟨by rw [hfeed], by unfold SM.runMachine; rw [hfeed]; rfl, ?_⟩
  have hmr : SM.machineRun {} ((f :: rest).map preNameChunk ++ [nameChunk name a]) =
      ({ currentState := .toolCalls, currentBlockIndex := 1,
         toolCallState := [(0, { id := some "t1", name := some name,
                                 args := strConcat (f :: rest) ++ a })],
         emittedToolStarts := [0], finalized := false },
      [.blockStart 1 (.toolUse "t1" name), .blockDelta 1 (.inputJsonDelta a)]) := by
    rw [machineRun_append, hrun]
    simp only [SM.machineRun]
    rw [processChunk_nameChunk _ _ _ hname]
    simp [ha]
  have hlist : (f :: rest).map preNameChunk ++ [nameChunk name a] =
      preNameChunk f :: (rest.map preNameChunk ++ [nameChunk name a]) := by
    simp
  rw [hlist, transduce_cons, ← hlist, hmr]
  rfl

/-- Witness for the amended C3 at one buffered fragment. -/
theorem c3_buffered_not_replayed_witness :
    (["ar"] : List String) ≠ [] ∧ ("f" : String) ≠ "" ∧ ("gs" : String) ≠ "" ∧
    ((SM.feedAll {} (["ar"].map preNameChunk)).2 = [.messageStart "x" "m"] ∧
      (SM.runMachine (["ar"].map preNameChunk)).toolCallState =
        [(0, { id := none, name := none, args := strConcat ["ar"] })] ∧
      SM.transduce (["ar"].map preNameChunk ++ [nameChunk "f" "gs"]) =
        [.messageStart "x" "m",
         .blockStart 1 (.toolUse "t1" "f"),
         .blockDelta 1 (.inputJsonDelta "gs"),
         .blockStop 1,
         .messageDelta .toolUse 0,
         .messageStop]) :=
  ⟨by decide, by decide, by decide,
   c3_buffered_not_replayed ["ar"] "f" "gs" (by decide) (by decide) (by decide)⟩

/-! ### C8 — SSE line framing and chunk boundaries -/

namespace Framer

/-- `text.split('\n')`, structured as (complete lines, residual after the
last newline). -/
def splitFrames : List Char → List (List Char) × List Char
  | [] => ([], [])
  | c :: cs =>
      let p := splitFrames cs
      if c = '\n' then ([] :: p.1, p.2)
      else
        match p.1 with
        | [] => ([], c :: p.2)
        | l :: ls => ((c :: l) :: ls, p.2)

def dataPrefix : List Char := ("data: ").toList

/-- A line's frame in the UNBUFFERED transformer
(`createOpenAIToAnthropicStreamTransformer` of `src/converters/streaming.ts`):
`line.slice(6)` when the line starts with `data: `. -/
def frameOfLine (l : List Char) : Option (List Char) :=
  if l.take 6 = dataPrefix then some (l.drop 6) else none

/-- A complete line's frame in the BUFFERED transformer
(`src/converters/streaming/index.ts`): `line.slice(6).trim()`. -/
def frameOfLineTrim (l : List Char) : Option (List Char) :=
  if l.take 6 = dataPrefix then some (jsTrimList (l.drop 6)) else none

/-- The frame sequence of the unbuffered transformer: every chunk is split
on newlines independently and every piece — the trailing fragment of an
unfinished line included — is tested for the `data: ` prefix; nothing is
carried over to the next chunk. -/
def framesUnbuffered (chunks : List (List Char)) : List (List Char) :=
  chunks.flatMap fun ch =>
    ((splitFrames ch).1 ++ [(splitFrames ch).2]).filterMap frameOfLine

/-- One `transform` call of the buffered transformer: the carry buffer is
prepended, the complete lines are framed, the last fragment becomes the
new buffer. -/
def feedText (st : List Char × List (List Char)) (chunk : List Char) :
    List Char × List (List Char) :=
  let p := splitFrames (st.1 ++ chunk)
  (p.2, st.2 ++ p.1.filterMap frameOfLineTrim)

/-- The `flush` of the buffered transformer: the residual is trimmed, then
tested for the prefix, and its payload trimmed. -/
def flushFrames (buf : List Char) : List (List Char) :=
  if jsTrimList buf ≠ [] then
    match frameOfLineTrim (jsTrimList buf) with
    | some d => [d]
    | none => []
  else []

/-- The frame sequence of the buffered transformer over a chunked stream. -/
def framesBuffered (chunks : List (List Char)) : List (List Char) :=
  let st := chunks.foldl feedText ([], [])
  st.2 ++ flushFrames st.1

theorem splitFrames_cons_nl (cs : List Char) :
    splitFrames ('\n' :: cs) = ([] :: (splitFrames cs).1, (splitFrames cs).2) := rfl

theorem splitFrames_cons_empty (c : Char) (cs : List Char) (hc : c ≠ '\n')
    (h : (splitFrames cs).1 = []) :
    splitFrames (c :: cs) = ([], c :: (splitFrames cs).2) := by
  simp only [splitFrames]
  rw [h]
  simp [hc]

theorem splitFrames_cons_line (c : Char) (cs : List Char) (l : List Char) (ls : List (List Char))
    (hc : c ≠ '\n') (h : (splitFrames cs).1 = l :: ls) :
    splitFrames (c :: cs) = ((c :: l) :: ls, (splitFrames cs).2) := by
  simp only [splitFrames]
  rw [h]
  simp [hc]

theorem splitFrames_residual_no_nl (l : List Char) : '\n' ∉ (splitFrames l).2 := by
  induction l with
  | nil => simp [splitFrames]
  | cons c cs ih =>
      by_cases hc : c = '\n'
      · subst hc
        rw [splitFrames_cons_nl]
        exact ih
      · rcases hp : (splitFrames cs).1 with _ | ⟨l0, ls⟩
        · rw [splitFrames_cons_empty c cs hc hp]
          intro hmem
          rcases List.mem_cons.mp hmem with h | h
          · exact hc h.symm
          · exact ih h
        · rw [splitFrames_cons_line c cs l0 ls hc hp]
          exact ih

theorem splitFrames_no_nl (l : List Char) (h : '\n' ∉ l) : splitFrames l = ([], l) := by
  induction l with
  | nil => rfl
  | cons c cs ih =>
      have hc : c ≠ '\n' := fun hx => h (hx ▸ List.mem_cons_self c cs)
      have hcs : '\n' ∉ cs := fun hx => h (List.mem_cons_of_mem c hx)
      have h1 : (splitFrames cs).1 = [] := by rw [ih hcs]
      rw [splitFrames_cons_empty c cs hc h1, ih hcs]

/-- Merging a carried-over residual into the head line of the next split. -/
def glue (r : List Char) (p : List (List Char) × List Char) :
    List (List Char) × List Char :=
  match p.1 with
  | [] => ([], r ++ p.2)
  | l :: ls => ((r ++ l) :: ls, p.2)

theorem glue_nil (p : List (List Char) × List Char) : glue [] p = p := by
  rcases p with ⟨lb, rb⟩
  rcases lb with _ | ⟨l, ls⟩ <;> simp [glue]

theorem splitFrames_append (a b : List Char) :
    splitFrames (a ++ b) =
      ((splitFrames a).1 ++ (glue (splitFrames a).2 (splitFrames b)).1,
       (glue (splitFrames a).2 (splitFrames b)).2) := by
  induction a with
  | nil =>
      have h0 : splitFrames ([] : List Char) = ([], []) := rfl
      rw [List.nil_append, h0]
      simp only [glue_nil]
      simp
  | cons c a2 ih =>
      by_cases hc : c = '\n'
      · subst hc
        rw [List.cons_append, splitFrames_cons_nl, splitFrames_cons_nl, ih]
        simp
      · rw [List.cons_append]
        rcases hla : (splitFrames a2).1 with _ | ⟨l0, ls0⟩
        · rw [splitFrames_cons_empty c a2 hc hla]
          rcases hgb : (splitFrames b).1 with _ | ⟨l, ls⟩
          · have h1 : (splitFrames (a2 ++ b)).1 = [] := by
              rw [ih]
              simp [hla, glue, hgb]
            rw [splitFrames_cons_empty c (a2 ++ b) hc h1, ih]
            simp [glue, hla, hgb]
          · have h1 : (splitFrames (a2 ++ b)).1 =
                ((splitFrames a2).2 ++ l) :: ls := by
              rw [ih]
              simp [hla, glue, hgb]
            rw [splitFrames_cons_line c (a2 ++ b) _ _ hc h1, ih]
            simp [glue, hla, hgb]
        · have h1 : (splitFrames (a2 ++ b)).1 =
              l0 :: (ls0 ++ (glue (splitFrames a2).2 (splitFrames b)).1) := by
            rw [ih]
            simp [hla]
          rw [splitFrames_cons_line c (a2 ++ b) _ _ hc h1,
              splitFrames_cons_line c a2 l0 ls0 hc hla, ih]
          simp [hla]

theorem feedText_comp (st : List Char × List (List Char)) (x y : List Char) :
    feedText (feedText st x) y = feedText st (x ++ y) := by
  unfold feedText
  have hres := splitFrames_no_nl (splitFrames (st.1 ++ x)).2
    (splitFrames_residual_no_nl (st.1 ++ x))
  have h1 := splitFrames_append ((splitFrames (st.1 ++ x)).2) y
  rw [hres] at h1
  have h2 : st.1 ++ x ++ y = st.1 ++ (x ++ y) := List.append_assoc _ _ _
  have h3 := splitFrames_append (st.1 ++ x) y
  rw [h2] at h3
  rw [h1, h3]
  simp [List.filterMap_append, List.append_assoc]

theorem feedText_nil (st : List Char × List (List Char)) (h : '\n' ∉ st.1) :
    feedText st [] = st := by
  unfold feedText
  rw [List.append_nil, splitFrames_no_nl st.1 h]
  simp

theorem foldl_feedText (chunks : List (List Char)) (st : List Char × List (List Char))
    (h : '\n' ∉ st.1) :
    chunks.foldl feedText st = feedText st chunks.flatten := by
  induction chunks generalizing st with
  | nil =>
      rw [List.foldl_nil, List.flatten_nil, feedText_nil st h]
  | cons c cs ih =>
      rw [List.foldl_cons, List.flatten_cons, ← feedText_comp]
      exact ih (feedText st c) (splitFrames_residual_no_nl (st.1 ++ c))

end Framer

/-- C8 amended (the buffered transformer): for every character stream and
every partition of it into chunks, the BUFFERED OpenAI→Anthropic stream
transformer (`src/converters/streaming/index.ts`) produces exactly the
frame sequence of feeding the whole stream as one chunk — chunk boundaries,
mid-line ones included, are invisible. -/
theorem c8_buffered_framer_invariance (chunks : List (List Char)) :
    Framer.framesBuffered chunks = Framer.framesBuffered [chunks.flatten] := by
  unfold Framer.framesBuffered
  rw [Framer.foldl_feedText chunks ([], []) (by simp)]
  rw [List.foldl_cons, List.foldl_nil]

/-- C8 counterexample (the unbuffered transformer of
`src/converters/streaming.ts`, the one the live handler imports): cutting
the byte stream `data: a\ndata: b\n` in the middle of the second `data: `
line loses the second frame entirely, so the output differs from feeding
the stream whole.  (All characters involved are ASCII, so the character
partition is also a byte partition.) -/
theorem c8_counterexample :
    ("data: a\nda").toList ++ ("ta: b\n").toList = ("data: a\ndata: b\n").toList ∧
    Framer.framesUnbuffered [("data: a\nda").toList, ("ta: b\n").toList] =
      [("a").toList] ∧
    Framer.framesUnbuffered [("data: a\ndata: b\n").toList] =
      [("a").toList, ("b").toList] ∧
    Framer.framesUnbuffered [("data: a\nda").toList, ("ta: b\n").toList] ≠
      Framer.framesUnbuffered [("data: a\ndata: b\n").toList] :=
  ⟨rfl, by decide, by decide, by decide⟩

/-! ### C1 — block-index discipline: the amended positive statement.
The restricted streams: all tool-call deltas carry one upstream index `k`,
no text content after a tool-call chunk, `finish_reason: "tool_calls"` at
most on the last chunk. -/

namespace SM

def chunkDelta (c : Chunk) : Option ChunkDelta :=
  c.choices.head?.bind ChunkChoice.delta

/-- The chunk is processed as text content (`delta.content` truthy). -/
def isTextChunk (c : Chunk) : Bool :=
  match chunkDelta c with
  | some d => strTruthy d.content
  | none => false

/-- The chunk is processed as tool calls (`delta.content` falsy and
`delta.tool_calls` present). -/
def isToolChunk (c : Chunk) : Bool :=
  match chunkDelta c with
  | some d => !(strTruthy d.content) && d.toolCalls.isSome
  | none => false

/-- The tool-call delta entries of a chunk. -/
def chunkToolDeltas (c : Chunk) : List TCDelta :=
  ((chunkDelta c).bind ChunkDelta.toolCalls).getD []

/-- The chunk's first choice carries `finish_reason: "tool_calls"`. -/
def isFinishTC (c : Chunk) : Bool :=
  match c.choices.head? with
  | some ch => ch.finishReason = some "tool_calls"
  | none => false

def noTextAfterToolAux (seenTool : Bool) : List Chunk → Bool
  | [] => true
  | c :: rest =>
      if isTextChunk c then !seenTool && noTextAfterToolAux seenTool rest
      else noTextAfterToolAux (seenTool || isToolChunk c) rest

/-- No chunk with truthy text content after any tool-call chunk. -/
def noTextAfterTool (cs : List Chunk) : Bool := noTextAfterToolAux false cs

/-- Only the last chunk may carry `finish_reason: "tool_calls"`. -/
def onlyLastFinishTC : List Chunk → Bool
  | [] => true
  | [_] => true
  | c :: c2 :: rest => !(isFinishTC c) && onlyLastFinishTC (c2 :: rest)

/-- The machine/checker configurations reachable along a restricted stream
(`phase` = a tool chunk has been seen). -/
inductive Inv (k : Nat) : MachineState → CheckSt → Bool → Prop
  | idle : Inv k {} {} false
  | text :
      Inv k { currentState := .textContent, currentBlockIndex := 0,
              toolCallState := [], emittedToolStarts := [], finalized := false }
            { openIndex := some 0, lastStopped := none } false
  | toolFresh (tbl : List (Nat × ToolCallState)) (ls : Option Nat)
      (htbl : tbl = [] ∨ ∃ row, tbl = [(k, row)] ∧ strTruthy row.name = false)
      (hls : ls = none ∨ ls = some 0) :
      Inv k { currentState := .toolCalls, currentBlockIndex := 1,
              toolCallState := tbl, emittedToolStarts := [], finalized := false }
            { openIndex := none, lastStopped := ls } true
  | toolStarted (row : ToolCallState) (ls : Option Nat) (hls : ls = none ∨ ls = some 0) :
      Inv k { currentState := .toolCalls, currentBlockIndex := 1,
              toolCallState := [(k, row)], emittedToolStarts := [k], finalized := false }
            { openIndex := some (k + 1), lastStopped := ls } true

/-- `Inv` extended by the configuration left after `completeToolCalls` has
closed a started tool block (reachable only through the final chunk). -/
inductive InvE (k : Nat) : MachineState → CheckSt → Bool → Prop
  | of (m : MachineState) (chk : CheckSt) (phase : Bool) (h : Inv k m chk phase) :
      InvE k m chk phase
  | toolClosed (row : ToolCallState) :
      InvE k { currentState := .toolCalls, currentBlockIndex := 1,
               toolCallState := [(k, row)], emittedToolStarts := [], finalized := false }
             { openIndex := none, lastStopped := some (k + 1) } true

/-- The two configurations of the tool phase while a single chunk's
tool-call deltas are folded. -/
inductive ToolPhase (k : Nat) (ls : Option Nat) : MachineState → CheckSt → Prop
  | fresh (tbl : List (Nat × ToolCallState))
      (htbl : tbl = [] ∨ ∃ row, tbl = [(k, row)] ∧ strTruthy row.name = false) :
      ToolPhase k ls { currentState := .toolCalls, currentBlockIndex := 1,
                       toolCallState := tbl, emittedToolStarts := [], finalized := false }
                     { openIndex := none, lastStopped := ls }
  | started (row : ToolCallState) :
      ToolPhase k ls { currentState := .toolCalls, currentBlockIndex := 1,
                       toolCallState := [(k, row)], emittedToolStarts := [k], finalized := false }
                     { openIndex := some (k + 1), lastStopped := ls }

theorem checkRun_append (st : CheckSt) (evs1 evs2 : List AEvent) :
    checkRun st (evs1 ++ evs2) =
      (checkRun st evs1).bind fun st2 => checkRun st2 evs2 := by
  unfold checkRun
  induction evs1 generalizing st with
  | nil => simp
  | cons e evs ih =>
      simp only [List.cons_append, List.foldlM_cons]
      rcases checkStep st e with _ | st2
      · simp
      · simp [ih st2]

end SM

namespace SM

theorem checkRun_nil (st : CheckSt) : checkRun st [] = some st := rfl

theorem startOk_true (ls : Option Nat) (i : Nat) (h : ∀ j, ls = some j → j < i) :
    startOk { openIndex := none, lastStopped := ls } i = true := by
  unfold startOk
  rcases ls with _ | j
  · simp
  · simp [h j rfl]

theorem toolPhase_one (k : Nat) (ls : Option Nat) (m : MachineState) (chk : CheckSt)
    (tc : TCDelta) (hP : ToolPhase k ls m chk) (hidx : tc.index.getD 0 = k)
    (hlt : ∀ j, ls = some j → j < k + 1) :
    ∃ chk2, checkRun chk (processOneToolCall m tc).2 = some chk2 ∧
      ToolPhase k ls (processOneToolCall m tc).1 chk2 := by
  rcases hP with ⟨tbl, htbl⟩ | row
  · have hprev : ∃ prevRow : ToolCallState, (tableGet tbl k).getD {} = prevRow ∧
        strTruthy prevRow.name = false ∧
        tableSet tbl k = fun v => [(k, v)] := by
      rcases htbl with h | ⟨row0, h, hrowname⟩
      · subst h
        exact ⟨{}, rfl, rfl, by funext v; rfl⟩
      · subst h
        refine ⟨row0, ?_, hrowname, ?_⟩
        · simp [tableGet]
        · funext v
          simp [tableSet]
    rcases hprev with ⟨prevRow, hprevEq, hprevName, hset⟩
    by_cases hname : strTruthy (jsNullish (tc.function.bind TCFunction.name) prevRow.name) = true
    · -- the name becomes known: the block is started
      by_cases hargs : strTruthy (tc.function.bind TCFunction.arguments) = true
      · refine ⟨{ openIndex := some (k + 1), lastStopped := ls }, ?_, ?_⟩
        · simp only [processOneToolCall, hidx, hprevEq, hname, hargs]
          simp [checkRun, checkStep, startOk_true ls (k + 1) hlt]
        · simp only [processOneToolCall, hidx, hprevEq, hname, hargs, hset]
          simpa using ToolPhase.started _
      · refine ⟨{ openIndex := some (k + 1), lastStopped := ls }, ?_, ?_⟩
        · simp only [processOneToolCall, hidx, hprevEq, hname, hargs]
          simp [checkRun, checkStep, startOk_true ls (k + 1) hlt]
        · simp only [processOneToolCall, hidx, hprevEq, hname, hargs, hset]
          simpa using ToolPhase.started _
    · -- still no name: nothing is emitted, the row is only merged
      refine ⟨{ openIndex := none, lastStopped := ls }, ?_, ?_⟩
      · simp only [processOneToolCall, hidx, hprevEq, hname]
        simp [checkRun]
      · simp only [processOneToolCall, hidx, hprevEq, hname, hset]
        refine ToolPhase.fresh _ (Or.inr ⟨_, rfl, ?_⟩)
        simpa using hname
  · -- already started: at most a delta is emitted
    have hprevEq : (tableGet [(k, row)] k).getD {} = row := by simp [tableGet]
    by_cases hargs : strTruthy (tc.function.bind TCFunction.arguments) = true
    · refine ⟨{ openIndex := some (k + 1), lastStopped := ls }, ?_, ?_⟩
      · simp only [processOneToolCall, hidx, hprevEq, hargs]
        simp [checkRun, checkStep]
      · simp only [processOneToolCall, hidx, hprevEq, hargs]
        simp only [tableSet]
        simpa using ToolPhase.started _
    · refine ⟨{ openIndex := some (k + 1), lastStopped := ls }, ?_, ?_⟩
      · simp only [processOneToolCall, hidx, hprevEq, hargs]
        simp [checkRun]
      · simp only [processOneToolCall, hidx, hprevEq, hargs]
        simp only [tableSet]
        simpa using ToolPhase.started _

end SM

namespace SM

theorem toolPhase_fold (k : Nat) (ls : Option Nat) (l : List TCDelta)
    (hidx : ∀ tc ∈ l, tc.index.getD 0 = k)
    (hlt : ∀ j, ls = some j → j < k + 1) :
    ∀ (m : MachineState) (chk : CheckSt), ToolPhase k ls m chk →
      ∃ chk2, checkRun chk (processToolCallDeltas m l).2 = some chk2 ∧
        ToolPhase k ls (processToolCallDeltas m l).1 chk2 := by
  induction l with
  | nil =>
      intro m chk hP
      exact ⟨chk, rfl, hP⟩
  | cons tc rest ih =>
      intro m chk hP
      obtain ⟨chk1, hrun1, hP1⟩ :=
        toolPhase_one k ls m chk tc hP (hidx tc (List.mem_cons_self tc rest)) hlt
      obtain ⟨chk2, hrun2, hP2⟩ :=
        ih (fun x hx => hidx x (List.mem_cons_of_mem tc hx)) (processOneToolCall m tc).1 chk1 hP1
      refine ⟨chk2, ?_, ?_⟩
      · simp only [processToolCallDeltas]
        rw [checkRun_append, hrun1]
        simpa using hrun2
      · simp only [processToolCallDeltas]
        exact hP2

end SM

namespace SM

theorem completeToolCalls_nil_table (m : MachineState) (h : m.toolCallState = []) :
    completeToolCalls m = (m, []) := by
  unfold completeToolCalls sortKeys
  rw [h]
  rfl

theorem completeToolCalls_single_notStarted (m : MachineState) (k : Nat) (row : ToolCallState)
    (htbl : m.toolCallState = [(k, row)]) (hst : m.emittedToolStarts = []) :
    completeToolCalls m = (m, []) := by
  unfold completeToolCalls sortKeys
  rw [htbl]
  simp [insertSorted, completeLoop, hst]

theorem completeToolCalls_single_started (m : MachineState) (k : Nat) (row : ToolCallState)
    (htbl : m.toolCallState = [(k, row)]) (hst : m.emittedToolStarts = [k]) :
    completeToolCalls m = ({ m with emittedToolStarts := [] }, [AEvent.blockStop (k + 1)]) := by
  unfold completeToolCalls sortKeys
  rw [htbl]
  simp [insertSorted, completeLoop, hst, htbl]

theorem toolPhase_to_inv (k : Nat) (ls : Option Nat) (m : MachineState) (chk : CheckSt)
    (h : ToolPhase k ls m chk) (hls : ls = none ∨ ls = some 0) : Inv k m chk true := by
  rcases h with ⟨tbl, htbl⟩ | row
  · exact Inv.toolFresh tbl ls htbl hls
  · exact Inv.toolStarted row ls hls

theorem complete_invE (k : Nat) (m : MachineState) (chk : CheckSt) (phase : Bool)
    (hInv : Inv k m chk phase) :
    ∃ chk2, checkRun chk (completeToolCalls m).2 = some chk2 ∧
      InvE k (completeToolCalls m).1 chk2 phase := by
  rcases hInv with _ | _ | ⟨tbl, ls, htbl, hls⟩ | ⟨row, ls, hls⟩
  · rw [completeToolCalls_nil_table _ rfl]
    exact ⟨_, rfl, InvE.of _ _ _ Inv.idle⟩
  · rw [completeToolCalls_nil_table _ rfl]
    exact ⟨_, rfl, InvE.of _ _ _ Inv.text⟩
  · rcases htbl with h | ⟨row, h, hrowname⟩
    · subst h
      rw [completeToolCalls_nil_table _ rfl]
      exact ⟨_, rfl, InvE.of _ _ _ (Inv.toolFresh [] ls (Or.inl rfl) hls)⟩
    · subst h
      rw [completeToolCalls_single_notStarted _ k row rfl rfl]
      exact ⟨_, rfl, InvE.of _ _ _
        (Inv.toolFresh [(k, row)] ls (Or.inr ⟨row, rfl, hrowname⟩) hls)⟩
  · rw [completeToolCalls_single_started _ k row rfl rfl]
    refine ⟨{ openIndex := none, lastStopped := some (k + 1) }, ?_, ?_⟩
    · simp [checkRun, checkStep]
    · exact InvE.toolClosed row

theorem finalize_check_ok (k : Nat) (m : MachineState) (chk : CheckSt) (phase : Bool)
    (hE : InvE k m chk phase) :
    ∃ chk2, checkRun chk (finalize m).2 = some chk2 := by
  rcases hE with ⟨m, chk, phase, hInv⟩ | row
  · rcases hInv with _ | _ | ⟨tbl, ls, htbl, hls⟩ | ⟨row, ls, hls⟩
    · unfold finalize
      rw [if_neg (by simp)]
      rw [completeToolCalls_nil_table _ rfl]
      exact ⟨_, rfl⟩
    · unfold finalize
      rw [if_neg (by simp)]
      rw [completeToolCalls_nil_table _ rfl]
      refine ⟨{ openIndex := none, lastStopped := some 0 }, ?_⟩
      simp [checkRun, checkStep]
    · unfold finalize
      rw [if_neg (by simp)]
      rcases htbl with h | ⟨row, h, hrowname⟩
      · subst h
        rw [completeToolCalls_nil_table _ rfl]
        exact ⟨_, rfl⟩
      · subst h
        rw [completeToolCalls_single_notStarted _ k row rfl rfl]
        exact ⟨_, rfl⟩
    · unfold finalize
      rw [if_neg (by simp)]
      rw [completeToolCalls_single_started _ k row rfl rfl]
      refine ⟨{ openIndex := none, lastStopped := some (k + 1) }, ?_⟩
      simp [checkRun, checkStep]
  · unfold finalize
    rw [if_neg (by simp)]
    rw [completeToolCalls_single_notStarted _ k row rfl rfl]
    exact ⟨_, rfl⟩

end SM

namespace SM

theorem fold_then_finish (k : Nat) (ls : Option Nat) (l : List TCDelta) (finTC : Bool)
    (m1 : MachineState) (chk1 : CheckSt)
    (hP : ToolPhase k ls m1 chk1)
    (hidx2 : ∀ tc ∈ l, tc.index.getD 0 = k)
    (hls : ls = none ∨ ls = some 0) :
    ∃ chk2,
      checkRun chk1 ((processToolCallDeltas m1 l).2 ++
        (if finTC then (completeToolCalls (processToolCallDeltas m1 l).1).2 else [])) =
          some chk2 ∧
      InvE k (if finTC then (completeToolCalls (processToolCallDeltas m1 l).1).1
              else (processToolCallDeltas m1 l).1) chk2 true ∧
      (finTC = false → Inv k (processToolCallDeltas m1 l).1 chk2 true) := by
  have hlt : ∀ j, ls = some j → j < k + 1 := by
    intro j hj
    rcases hls with h | h
    · rw [h] at hj
      cases hj
    · rw [h] at hj
      cases hj
      omega
  obtain ⟨chkA, hrunA, hPA⟩ := toolPhase_fold k ls l hidx2 hlt m1 chk1 hP
  have hInvA := toolPhase_to_inv k ls _ _ hPA hls
  cases finTC with
  | false =>
      refine ⟨chkA, ?_, InvE.of _ _ _ hInvA, fun _ => hInvA⟩
      simpa using hrunA
  | true =>
      obtain ⟨chkB, hrunB, hEB⟩ := complete_invE k _ _ _ hInvA
      refine ⟨chkB, ?_, by simpa using hEB, fun h => Bool.noConfusion h⟩
      simp only [if_pos]
      rw [checkRun_append, hrunA]
      simpa using hrunB

theorem processChunk_none_head (m : MachineState) (c : Chunk) (h : c.choices.head? = none) :
    processChunk m c = (m, []) := by
  unfold processChunk
  rw [h]

theorem processChunk_none_delta (m : MachineState) (c : Chunk) (ch : ChunkChoice)
    (hh : c.choices.head? = some ch) (hd : ch.delta = none) :
    processChunk m c = (m, []) := by
  unfold processChunk
  rw [hh]
  dsimp only
  rw [hd]

end SM

namespace SM

theorem inv_stepE (k : Nat) (phase : Bool) (c : Chunk) (m : MachineState) (chk : CheckSt)
    (hInv : Inv k m chk phase)
    (hidx : ∀ tc ∈ chunkToolDeltas c, tc.index.getD 0 = k)
    (hphase : phase = true → isTextChunk c = false) :
    ∃ chk2, checkRun chk (processChunk m c).2 = some chk2 ∧
      InvE k (processChunk m c).1 chk2 (phase || isToolChunk c) ∧
      (isFinishTC c = false → Inv k (processChunk m c).1 chk2 (phase || isToolChunk c)) := by
  rcases hhead : c.choices.head? with _ | ch
  · have hpc := processChunk_none_head m c hhead
    have htool : isToolChunk c = false := by
      unfold isToolChunk chunkDelta
      rw [hhead]
      rfl
    rw [hpc, htool, Bool.or_false]
    exact ⟨chk, rfl, InvE.of _ _ _ hInv, fun _ => hInv⟩
  rcases hdelta : ch.delta with _ | d
  · have hpc := processChunk_none_delta m c ch hhead hdelta
    have htool : isToolChunk c = false := by
      unfold isToolChunk chunkDelta
      rw [hhead]
      simp [hdelta]
    rw [hpc, htool, Bool.or_false]
    exact ⟨chk, rfl, InvE.of _ _ _ hInv, fun _ => hInv⟩
  have hcd : chunkDelta c = some d := by
    unfold chunkDelta
    rw [hhead]
    simpa using hdelta
  have hfinEq : isFinishTC c = decide (ch.finishReason = some "tool_calls") := by
    unfold isFinishTC
    rw [hhead]
  by_cases hct : strTruthy d.content = true
  · -- processed as text content
    have htext : isTextChunk c = true := by
      unfold isTextChunk
      rw [hcd]
      exact hct
    have htool : isToolChunk c = false := by
      unfold isToolChunk
      rw [hcd]
      simp [hct]
    have hph : phase = false := by
      cases hpv : phase
      · rfl
      · exact absurd htext (by simp [hphase hpv])
    subst hph
    rw [htool, Bool.or_false]
    cases hInv with
    | idle =>
        have hpc : processChunk {} c =
            ({ currentState := .textContent, currentBlockIndex := 0, toolCallState := [],
               emittedToolStarts := [], finalized := false },
             [AEvent.blockStart 0 .text, AEvent.blockDelta 0 (.textDelta (d.content.getD ""))]) := by
          unfold processChunk
          rw [hhead]
          dsimp only
          rw [hdelta]
          by_cases hfin2 : ch.finishReason = some "tool_calls" <;>
            simp [hct, transition, emitContent, hfin2, completeToolCalls, sortKeys, completeLoop]
        rw [hpc]
        refine ⟨{ openIndex := some 0, lastStopped := none }, ?_, InvE.of _ _ _ Inv.text,
          fun _ => Inv.text⟩
        simp [checkRun, checkStep, startOk]
    | text =>
        have hpc : processChunk
            { currentState := .textContent, currentBlockIndex := 0, toolCallState := [],
              emittedToolStarts := [], finalized := false } c =
            ({ currentState := .textContent, currentBlockIndex := 0, toolCallState := [],
               emittedToolStarts := [], finalized := false },
             [AEvent.blockDelta 0 (.textDelta (d.content.getD ""))]) := by
          unfold processChunk
          rw [hhead]
          dsimp only
          rw [hdelta]
          by_cases hfin2 : ch.finishReason = some "tool_calls" <;>
            simp [hct, transition, emitContent, hfin2, completeToolCalls, sortKeys, completeLoop]
        rw [hpc]
        refine ⟨{ openIndex := some 0, lastStopped := none }, ?_, InvE.of _ _ _ Inv.text,
          fun _ => Inv.text⟩
        simp [checkRun, checkStep]
  · -- content falsy
    simp only [Bool.not_eq_true] at hct
    rcases htcs : d.toolCalls with _ | l
    · -- no tool calls either: the chunk changes nothing (except a possible
      -- finish-triggered completeToolCalls)
      have htool : isToolChunk c = false := by
        unfold isToolChunk
        rw [hcd]
        simp [htcs]
      rw [htool, Bool.or_false]
      have hemit : ∀ mm : MachineState, emitContent mm d = (mm, []) := by
        intro mm
        unfold emitContent
        simp [hct, htcs]
      by_cases hfin2 : ch.finishReason = some "tool_calls"
      · have hpc : processChunk m c = ((completeToolCalls m).1, (completeToolCalls m).2) := by
          unfold processChunk
          rw [hhead]
          dsimp only
          rw [hdelta]
          simp [hct, htcs, hemit, hfin2]
        rw [hpc]
        obtain ⟨chk2, hrun2, hE2⟩ := complete_invE k m chk phase hInv
        refine ⟨chk2, hrun2, hE2, ?_⟩
        intro h
        rw [hfinEq] at h
        simp [hfin2] at h
      · have hpc : processChunk m c = (m, []) := by
          unfold processChunk
          rw [hhead]
          dsimp only
          rw [hdelta]
          simp [hct, htcs, hemit, hfin2]
        rw [hpc]
        exact ⟨chk, rfl, InvE.of _ _ _ hInv, fun _ => hInv⟩
    · -- processed as tool calls
      have htool : isToolChunk c = true := by
        unfold isToolChunk
        rw [hcd]
        simp [hct, htcs]
      rw [htool, Bool.or_true]
      have hcds : chunkToolDeltas c = l := by
        unfold chunkToolDeltas
        rw [hcd]
        simp [htcs]
      have hidx2 : ∀ tc ∈ l, tc.index.getD 0 = k := by
        rw [hcds] at hidx
        exact hidx
      cases hInv with
      | idle =>
          by_cases hfin2 : ch.finishReason = some "tool_calls" <;>
          · obtain ⟨chk2, hrun2, hE2, hI2⟩ :=
              fold_then_finish k none l (decide (ch.finishReason = some "tool_calls"))
                { currentState := .toolCalls, currentBlockIndex := 1, toolCallState := [],
                  emittedToolStarts := [], finalized := false }
                { openIndex := none, lastStopped := none }
                (ToolPhase.fresh [] (Or.inl rfl)) hidx2 (Or.inl rfl)
            have hpc : processChunk {} c =
                ((if decide (ch.finishReason = some "tool_calls") then
                    (completeToolCalls (processToolCallDeltas
                      { currentState := .toolCalls, currentBlockIndex := 1, toolCallState := [],
                        emittedToolStarts := [], finalized := false } l).1).1
                  else (processToolCallDeltas
                      { currentState := .toolCalls, currentBlockIndex := 1, toolCallState := [],
                        emittedToolStarts := [], finalized := false } l).1),
                 (processToolCallDeltas
                    { currentState := .toolCalls, currentBlockIndex := 1, toolCallState := [],
                      emittedToolStarts := [], finalized := false } l).2 ++
                   (if decide (ch.finishReason = some "tool_calls") then
                      (completeToolCalls (processToolCallDeltas
                        { currentState := .toolCalls, currentBlockIndex := 1, toolCallState := [],
                          emittedToolStarts := [], finalized := false } l).1).2
                    else [])) := by
              unfold processChunk
              rw [hhead]
              dsimp only
              rw [hdelta]
              simp [hct, htcs, transition, emitContent, hfin2]
            rw [hpc]
            refine ⟨chk2, hrun2, hE2, fun h => by rw [hfinEq] at h; rw [h]; exact hI2 h⟩
      | text =>
          by_cases hfin2 : ch.finishReason = some "tool_calls" <;>
          · obtain ⟨chk2, hrun2, hE2, hI2⟩ :=
              fold_then_finish k (some 0) l (decide (ch.finishReason = some "tool_calls"))
                { currentState := .toolCalls, currentBlockIndex := 1, toolCallState := [],
                  emittedToolStarts := [], finalized := false }
                { openIndex := none, lastStopped := some 0 }
                (ToolPhase.fresh [] (Or.inl rfl)) hidx2 (Or.inr rfl)
            have hpc : processChunk
                { currentState := .textContent, currentBlockIndex := 0, toolCallState := [],
                  emittedToolStarts := [], finalized := false } c =
                ((if decide (ch.finishReason = some "tool_calls") then
                    (completeToolCalls (processToolCallDeltas
                      { currentState := .toolCalls, currentBlockIndex := 1, toolCallState := [],
                        emittedToolStarts := [], finalized := false } l).1).1
                  else (processToolCallDeltas
                      { currentState := .toolCalls, currentBlockIndex := 1, toolCallState := [],
                        emittedToolStarts := [], finalized := false } l).1),
                 AEvent.blockStop 0 ::
                   ((processToolCallDeltas
                      { currentState := .toolCalls, currentBlockIndex := 1, toolCallState := [],
                        emittedToolStarts := [], finalized := false } l).2 ++
                     (if decide (ch.finishReason = some "tool_calls") then
                        (completeToolCalls (processToolCallDeltas
                          { currentState := .toolCalls, currentBlockIndex := 1, toolCallState := [],
                            emittedToolStarts := [], finalized := false } l).1).2
                      else []))) := by
              unfold processChunk
              rw [hhead]
              dsimp only
              rw [hdelta]
              simp [hct, htcs, transition, emitContent, hfin2]
            rw [hpc]
            refine ⟨chk2, ?_, hE2, fun h => by rw [hfinEq] at h; rw [h]; exact hI2 h⟩
            have hstop : checkStep { openIndex := some 0, lastStopped := none }
                (AEvent.blockStop 0) = some { openIndex := none, lastStopped := some 0 } := by
              simp [checkStep]
            show checkRun _ (AEvent.blockStop 0 :: _) = some chk2
            unfold checkRun
            rw [List.foldlM_cons, hstop]
            exact hrun2
      | toolFresh tbl ls htbl hls =>
          by_cases hfin2 : ch.finishReason = some "tool_calls" <;>
          · obtain ⟨chk2, hrun2, hE2, hI2⟩ :=
              fold_then_finish k ls l (decide (ch.finishReason = some "tool_calls"))
                { currentState := .toolCalls, currentBlockIndex := 1, toolCallState := tbl,
                  emittedToolStarts := [], finalized := false }
                { openIndex := none, lastStopped := ls }
                (ToolPhase.fresh tbl htbl) hidx2 hls
            have hpc : processChunk
                { currentState := .toolCalls, currentBlockIndex := 1, toolCallState := tbl,
                  emittedToolStarts := [], finalized := false } c =
                ((if decide (ch.finishReason = some "tool_calls") then
                    (completeToolCalls (processToolCallDeltas
                      { currentState := .toolCalls, currentBlockIndex := 1, toolCallState := tbl,
                        emittedToolStarts := [], finalized := false } l).1).1
                  else (processToolCallDeltas
                      { currentState := .toolCalls, currentBlockIndex := 1, toolCallState := tbl,
                        emittedToolStarts := [], finalized := false } l).1),
                 (processToolCallDeltas
                    { currentState := .toolCalls, currentBlockIndex := 1, toolCallState := tbl,
                      emittedToolStarts := [], finalized := false } l).2 ++
                   (if decide (ch.finishReason = some "tool_calls") then
                      (completeToolCalls (processToolCallDeltas
                        { currentState := .toolCalls, currentBlockIndex := 1, toolCallState := tbl,
                          emittedToolStarts := [], finalized := false } l).1).2
                    else [])) := by
              unfold processChunk
              rw [hhead]
              dsimp only
              rw [hdelta]
              simp [hct, htcs, transition, emitContent, hfin2]
            rw [hpc]
            refine ⟨chk2, hrun2, hE2, fun h => by rw [hfinEq] at h; rw [h]; exact hI2 h⟩
      | toolStarted row ls hls =>
          by_cases hfin2 : ch.finishReason = some "tool_calls" <;>
          · obtain ⟨chk2, hrun2, hE2, hI2⟩ :=
              fold_then_finish k ls l (decide (ch.finishReason = some "tool_calls"))
                { currentState := .toolCalls, currentBlockIndex := 1,
                  toolCallState := [(k, row)], emittedToolStarts := [k], finalized := false }
                { openIndex := some (k + 1), lastStopped := ls }
                (ToolPhase.started row) hidx2 hls
            have hpc : processChunk
                { currentState := .toolCalls, currentBlockIndex := 1,
                  toolCallState := [(k, row)], emittedToolStarts := [k], finalized := false } c =
                ((if decide (ch.finishReason = some "tool_calls") then
                    (completeToolCalls (processToolCallDeltas
                      { currentState := .toolCalls, currentBlockIndex := 1,
                        toolCallState := [(k, row)], emittedToolStarts := [k],
                        finalized := false } l).1).1
                  else (processToolCallDeltas
                      { currentState := .toolCalls, currentBlockIndex := 1,
                        toolCallState := [(k, row)], emittedToolStarts := [k],
                        finalized := false } l).1),
                 (processToolCallDeltas
                    { currentState := .toolCalls, currentBlockIndex := 1,
                      toolCallState := [(k, row)], emittedToolStarts := [k],
                      finalized := false } l).2 ++
                   (if decide (ch.finishReason = some "tool_calls") then
                      (completeToolCalls (processToolCallDeltas
                        { currentState := .toolCalls, currentBlockIndex := 1,
                          toolCallState := [(k, row)], emittedToolStarts := [k],
                          finalized := false } l).1).2
                    else [])) := by
              unfold processChunk
              rw [hhead]
              dsimp only
              rw [hdelta]
              simp [hct, htcs, transition, emitContent, hfin2]
            rw [hpc]
            refine ⟨chk2, hrun2, hE2, fun h => by rw [hfinEq] at h; rw [h]; exact hI2 h⟩

end SM

namespace SM

theorem isTextChunk_not_tool (c : Chunk) (h : isTextChunk c = true) :
    isToolChunk c = false := by
  unfold isTextChunk at h
  unfold isToolChunk
  rcases hd : chunkDelta c with _ | d
  · rfl
  · rw [hd] at h
    simp only at h
    simp [h]

theorem checkRun_passthrough (st : CheckSt) (e : AEvent) (evs : List AEvent)
    (h : checkStep st e = some st) :
    checkRun st (e :: evs) = checkRun st evs := by
  unfold checkRun
  rw [List.foldlM_cons, h]
  rfl

/-- Propagating the reachable-configuration invariant along a whole
restricted chunk stream: the checker accepts every emitted event and the
final machine/checker pair is a (possibly tool-closed) invariant
configuration. -/
theorem inv_run (k : Nat) (cs : List Chunk) :
    ∀ (phase : Bool) (m : MachineState) (chk : CheckSt),
    Inv k m chk phase →
    (∀ c ∈ cs, ∀ tc ∈ chunkToolDeltas c, tc.index.getD 0 = k) →
    noTextAfterToolAux phase cs = true →
    onlyLastFinishTC cs = true →
    ∃ chk2 phase2, checkRun chk (machineRun m cs).2 = some chk2 ∧
      InvE k (machineRun m cs).1 chk2 phase2 := by
  induction cs with
  | nil =>
      intro phase m chk hInv _ _ _
      exact ⟨chk, phase, rfl, InvE.of _ _ _ hInv⟩
  | cons c rest ih =>
      intro phase m chk hInv hidx hnt holf
      have hidxc : ∀ tc ∈ chunkToolDeltas c, tc.index.getD 0 = k :=
        hidx c (List.mem_cons_self c rest)
      have hphase : phase = true → isTextChunk c = false := by
        intro hp
        by_contra hC
        simp only [Bool.not_eq_false] at hC
        rw [hp] at hnt
        simp [noTextAfterToolAux, hC] at hnt
      obtain ⟨chk1, hrun1, hE1, hI1⟩ := inv_stepE k phase c m chk hInv hidxc hphase
      have hntRest : noTextAfterToolAux (phase || isToolChunk c) rest = true := by
        by_cases hT : isTextChunk c = true
        · have htool : isToolChunk c = false := isTextChunk_not_tool c hT
          simp only [noTextAfterToolAux, hT, if_true, Bool.and_eq_true] at hnt
          rw [htool, Bool.or_false]
          exact hnt.2
        · simp only [Bool.not_eq_true] at hT
          simpa [noTextAfterToolAux, hT] using hnt
      cases rest with
      | nil =>
          refine ⟨chk1, phase || isToolChunk c, ?_, ?_⟩
          · simp only [machineRun, List.append_nil]
            exact hrun1
          · simp only [machineRun]
            exact hE1
      | cons c2 rest2 =>
          have hfin : isFinishTC c = false := by
            simp only [onlyLastFinishTC, Bool.and_eq_true, Bool.not_eq_true'] at holf
            exact holf.1
          have hInv1 := hI1 hfin
          obtain ⟨chk2, phase2, hrun2, hE2⟩ :=
            ih (phase || isToolChunk c) (processChunk m c).1 chk1 hInv1
              (fun c' hc' => hidx c' (List.mem_cons_of_mem c hc'))
              hntRest
              (by simp only [onlyLastFinishTC, Bool.and_eq_true] at holf; exact holf.2)
          refine ⟨chk2, phase2, ?_, ?_⟩
          · simp only [machineRun]
            rw [checkRun_append, hrun1, Option.some_bind]
            exact hrun2
          · simp only [machineRun]
            exact hE2

end SM

/-- A chunk delivering a text fragment (used for the C1 witness stream). -/
def c1TextChunk : SM.Chunk :=
  { id := "x", model := "m",
    choices := [{ delta := some { content := some "Hello", toolCalls := none },
                  finishReason := none }] }

/-- A single complete tool-call delta at upstream index 0 (used for the C1
witness stream). -/
def c1ToolChunk : SM.Chunk :=
  { id := "x", model := "m",
    choices := [{ delta := some { content := none,
                                  toolCalls := some [{ index := some 0, id := some "call_1",
                                                       function := some { name := some "get",
                                                                          arguments := some "1" } }] },
                  finishReason := none }] }

/-- The terminating chunk: empty delta with `finish_reason: "tool_calls"`
(used for the C1 witness stream). -/
def c1FinishChunk : SM.Chunk :=
  { id := "x", model := "m",
    choices := [{ delta := some { content := none, toolCalls := none },
                  finishReason := some "tool_calls" }] }

/-- C1 (amended): for every upstream stream that terminates in a
finish_reason, in which all tool-call deltas address one upstream index,
no text fragment arrives after a tool-call chunk, and only the last chunk
carries `finish_reason: "tool_calls"`, the Anthropic event sequence emitted
by the streaming transducer satisfies the block-index discipline: indices
are strictly increasing over the blocks, a `content_block_start` appears
only while no block is open, and every delta/stop addresses the open
block.  (Unrestricted, the claim fails: see `c1_counterexample`.) -/
theorem c1_block_discipline (k : Nat) (cs : List SM.Chunk)
    (hidx : ∀ c ∈ cs, ∀ tc ∈ SM.chunkToolDeltas c, tc.index.getD 0 = k)
    (hnt : SM.noTextAfterTool cs = true)
    (holf : SM.onlyLastFinishTC cs = true)
    (hfin : ∃ c ∈ cs, ((c.choices.head?).bind SM.ChunkChoice.finishReason).isSome = true) :
    SM.blockDiscipline (SM.transduce cs) = true := by
  cases cs with
  | nil => rfl
  | cons c cs' =>
      rw [transduce_cons]
      unfold SM.blockDiscipline
      obtain ⟨chk2, phase2, hrunA, hE⟩ :=
        SM.inv_run k (c :: cs') false {} {} SM.Inv.idle hidx hnt holf
      obtain ⟨chk3, hrunB⟩ := SM.finalize_check_ok k _ chk2 phase2 hE
      rw [SM.checkRun_passthrough {} (SM.AEvent.messageStart c.id c.model) _ rfl]
      rw [SM.checkRun_append, hrunA, Option.some_bind]
      rw [SM.checkRun_append, hrunB, Option.some_bind]
      simp [SM.checkRun, SM.checkStep]

/-- The C1 theorem applied to a concrete restricted stream: a text chunk,
then one complete tool call at upstream index 0, then the
`finish_reason: "tool_calls"` terminator. -/
theorem c1_block_discipline_witness :
    SM.blockDiscipline (SM.transduce [c1TextChunk, c1ToolChunk, c1FinishChunk]) = true :=
  c1_block_discipline 0 [c1TextChunk, c1ToolChunk, c1FinishChunk]
    (by decide) (by rfl) (by rfl)
    ⟨c1FinishChunk,
     List.mem_cons_of_mem _ (List.mem_cons_of_mem _ (List.mem_cons_self _ _)), rfl⟩
